import Mathlib

/-!
# git-remote-ipld: push engine, reference lister and manifest builder

A shallow embedding of `core/push.go` (the worklist walker `Push.doWork` with
`Push.processLinks`) and of `cmd/git-remote-ipld/ipld.go` (`IpldHandler.List`
and `insertRefIntoMap`), followed by the properties established about them.

Conventions of the embedding:

* Go strings are Lean `String`s, byte slices are lists of `Fin 256`.
* A Go `map[string]interface{}` is an association list read with `GoMap.get`
  (first binding wins) and written with `GoMap.set` (overwrite or append).
* Code that may panic returns `Option` (`none` is the panic); code that
  returns a Go `error` returns `Except String`.
* `uint64` counters are `Nat` reduced modulo `2 ^ 64`.
* The worklist loop of `doWork` takes a fuel argument counting loop
  iterations; `none` means the fuel ran out before the loop finished.
-/

namespace GitRemoteIpld

/-! ## Manifest tree (`insertRefIntoMap`, ipld.go 124-135) -/

/-- The dynamic values stored in the repository map: a CID string (stored under
the `"/"` key) or a nested `map[string]interface{}`. -/
inductive Val where
  | str (s : String) : Val
  | map (entries : List (String × Val)) : Val

/-- A Go `map[string]interface{}`. -/
abbrev GoMap := List (String × Val)

/-- Map read `m[k]`; `none` when the key is absent. -/
def GoMap.get : GoMap → String → Option Val
  | [], _ => none
  | (k', v) :: rest, k => if k' = k then some v else GoMap.get rest k

/-- Map write `m[k] = v`. -/
def GoMap.set : GoMap → String → Val → GoMap
  | [], k, v => [(k, v)]
  | (k', v') :: rest, k, v =>
    if k' = k then (k, v) :: rest else (k', v') :: GoMap.set rest k v

/-- Go `strings.Split(s, "/")` on the characters of `s`: the pieces between
consecutive separators, `n + 1` pieces for `n` separators. -/
def splitSlash : List Char → List (List Char)
  | [] => [[]]
  | c :: cs =>
    if c = '/' then [] :: splitSlash cs
    else
      match splitSlash cs with
      | [] => [[c]]
      | seg :: segs => (c :: seg) :: segs

/-- Go `strings.Split(ref, "/")`. -/
def Split (ref : String) : List String :=
  (splitSlash ref.data).map String.mk

/-- The `for _, seg := range split` loop of `insertRefIntoMap` followed by
`currMap["/"] = cid`. The maps are updated in place in the source; here the
updated child is written back into its parent. `none` is the panic of the
type assertion `currMap[seg].(map[string]interface{})`. -/
def insertLoop : List String → GoMap → String → Option GoMap
  | [], currMap, cid => some (currMap.set "/" (Val.str cid))
  | seg :: rest, currMap, cid =>
    let currMap1 :=
      match currMap.get seg with
      | some _ => currMap
      | none => currMap.set seg (Val.map [])
    match currMap1.get seg with
    | some (Val.map child) =>
      (insertLoop rest child cid).map (fun child' => currMap1.set seg (Val.map child'))
    | _ => none

/-- The function `insertRefIntoMap(m, ref, cid)`. -/
def insertRefIntoMap (m : GoMap) (ref : String) (cid : String) : Option GoMap :=
  insertLoop (Split ref) m cid

/-- The tree obtained from the empty map `make(map[string]interface{})` by a
sequence of `insertRefIntoMap` calls, oldest first. -/
def buildManifest (ops : List (String × String)) : Option GoMap :=
  ops.foldl (fun acc op => acc.bind (fun m => insertRefIntoMap m op.1 op.2)) (some [])

/-- Descend from a node along path segments through nested maps. -/
def nodeAt : GoMap → List String → Option GoMap
  | m, [] => some m
  | m, seg :: rest =>
    match m.get seg with
    | some (Val.map child) => nodeAt child rest
    | _ => none

/-- Read the `"/"` leaf marker of a node. -/
def leafCid (m : GoMap) : Option String :=
  match m.get "/" with
  | some (Val.str c) => some c
  | _ => none

/-- Resolve a reference name in a manifest: split on `"/"`, descend segment by
segment, read the `"/"` leaf marker. -/
def resolveRef (m : GoMap) (ref : String) : Option String :=
  (nodeAt m (Split ref)).bind leafCid

/-- A node carries the `"/"` link marker. -/
def hasMarker (m : GoMap) : Bool := (m.get "/").isSome

/-- A node has an entry under the path-segment key `k`. -/
def hasChild (m : GoMap) (k : String) : Bool := k != "/" && (m.get k).isSome

/-- The segment list `a` is a proper prefix of the segment list `b`. -/
def properPrefix (a b : List String) : Prop := a <+: b ∧ a ≠ b

instance (a b : List String) : Decidable (properPrefix a b) := by
  unfold properPrefix; infer_instance

/-- No inserted reference name is, segment by segment, a proper prefix of
another inserted name. -/
def PrefixFree (ops : List (String × String)) : Prop :=
  ∀ a ∈ ops, ∀ b ∈ ops, ¬ properPrefix (Split a.1) (Split b.1)

instance (ops : List (String × String)) : Decidable (PrefixFree ops) := by
  unfold PrefixFree; infer_instance

/-- Shape of the trees the builder produces: every value under a key other
than `"/"` is a nested map of the same shape and the value under `"/"` is a
CID string. -/
inductive WellShaped : GoMap → Prop where
  | mk (m : GoMap)
      (hkey : ∀ k child, m.get k = some (Val.map child) → k ≠ "/")
      (hmap : ∀ k child, m.get k = some (Val.map child) → WellShaped child)
      (hstr : ∀ k s, m.get k = some (Val.str s) → k = "/") : WellShaped m

/-- No path segment is the reserved `"/"` key. -/
def SegsOK (segs : List String) : Prop := ∀ s ∈ segs, s ≠ "/"

/-- Resolve a list of path segments: descend, then read the leaf marker. -/
def resolveSegs (m : GoMap) (segs : List String) : Option String :=
  (nodeAt m segs).bind leafCid

/-! ## Hexadecimal text (`encoding/hex` of the Go standard library) -/

/-- A byte. -/
abbrev Byte := Fin 256

/-- Value of one hexadecimal digit, either case; `none` for any other character. -/
def fromHexChar (c : Char) : Option Nat :=
  if '0' ≤ c ∧ c ≤ '9' then some (c.toNat - '0'.toNat)
  else if 'a' ≤ c ∧ c ≤ 'f' then some (c.toNat - 'a'.toNat + 10)
  else if 'A' ≤ c ∧ c ≤ 'F' then some (c.toNat - 'A'.toNat + 10)
  else none

/-- The loop of `hex.Decode`: the bytes decoded before the first problem and
the error, if any (an invalid character, or an odd number of characters). -/
def decodePairs : List Char → List Byte × Option String
  | [] => ([], none)
  | [p] =>
    match fromHexChar p with
    | none => ([], some "encoding/hex: invalid byte")
    | some _ => ([], some "encoding/hex: odd length hex string")
  | p :: q :: rest =>
    match fromHexChar p, fromHexChar q with
    | some a, some b =>
      let r := decodePairs rest
      (Fin.ofNat (a * 16 + b) :: r.1, r.2)
    | _, _ => ([], some "encoding/hex: invalid byte")

/-- Go `hex.DecodeString(s)`: the decoded bytes and the error. -/
def DecodeString (s : String) : List Byte × Option String :=
  decodePairs s.data

/-- Digit `n` of the table `"0123456789abcdef"`. -/
def hexDigit (n : Nat) : Char :=
  "0123456789abcdef".data.getD n '0'

/-- Two lower-case digits per byte. -/
def encodeChars : List Byte → List Char
  | [] => []
  | b :: rest => hexDigit (b.val / 16) :: hexDigit (b.val % 16) :: encodeChars rest

/-- Go `hex.EncodeToString(bs)`. -/
def EncodeToString (bs : List Byte) : String :=
  String.mk (encodeChars bs)

/-! ## Reference lister (`IpldHandler.List`, ipld.go 22-89) -/

/-- The type `plumbing.ReferenceType` of go-git. -/
inductive ReferenceType where
  | InvalidReference
  | HashReference
  | SymbolicReference
  deriving DecidableEq

/-- A `plumbing.Reference`: type, name, hash (meaningful for a hash
reference) and target name (meaningful for a symbolic reference). -/
structure Reference where
  t : ReferenceType
  n : String
  h : List Byte
  target : String

/-- The constant `plumbing.HEAD`. -/
def HEAD : String := "HEAD"

/-- The parts of `core.Remote` that `List` calls: `Repo.Reference(name,
resolved)`, `Repo.Branches()` (the references the iterator yields, in order)
and `Tracker.GetRef(name)` (`none` is the nil slice of an unset slot). -/
structure Remote where
  Reference : String → Bool → Except String Reference
  Branches : Except String (List GitRemoteIpld.Reference)
  GetRef : String → Except String (Option (List Byte))

/-- The handler: `remoteHash` is the hash taken from the remote name. -/
structure IpldHandler where
  remoteHash : String

/-- Body of the closure passed to `it.ForEach` in `List`, on the captured
variables `out` and `n`; `osArgs` is `os.Args`. -/
def listBranch (h : IpldHandler) (remote : Remote) (forPush : Bool) (osArgs : List String)
    (headRef : Reference) (acc : List String × Nat) (ref : Reference) :
    Except String (List String × Nat) :=
  let n := acc.2 + 1
  match remote.GetRef ref.n with
  | .error err => .error err
  | .ok tracked =>
    let trackedRef : List Byte :=
      match tracked with
      | none => List.replicate 20 0
      | some bs => bs
    if !forPush ∧ headRef.target = ref.n ∧ headRef.t = ReferenceType.SymbolicReference
        ∧ osArgs.length ≥ 3 then
      match DecodeString h.remoteHash with
      | (_, some err) => .error err
      | (sha, none) =>
        if sha.length ≠ 20 then .error "invalid hash length"
        else .ok (acc.1 ++ [h.remoteHash ++ " " ++ headRef.target], n)
    else
      .ok (acc.1 ++ [EncodeToString trackedRef ++ " " ++ ref.n], n)

/-- The iteration `it.ForEach(...)`: stops at the first error. -/
def forEachBranch (h : IpldHandler) (remote : Remote) (forPush : Bool) (osArgs : List String)
    (headRef : Reference) : List Reference → List String × Nat → Except String (List String × Nat)
  | [], acc => .ok acc
  | ref :: rest, acc =>
    match listBranch h remote forPush osArgs headRef acc ref with
    | .error err => .error err
    | .ok acc' => forEachBranch h remote forPush osArgs headRef rest acc'

/-- Listing lines, a Go `[]string`. -/
abbrev Lines := List String

/-- The method `IpldHandler.List(remote, forPush)`; an error carries no lines. -/
def IpldHandler.List (h : IpldHandler) (remote : Remote) (forPush : Bool)
    (osArgs : Lines) : Except String Lines :=
  match remote.Reference HEAD false with
  | .error err => .error err
  | .ok headRef =>
    match remote.Branches with
    | .error err => .error err
    | .ok it =>
      match forEachBranch h remote forPush osArgs headRef it ([], 0) with
      | .error err => .error err
      | .ok (out, n) =>
        -- For clone
        let cloneStep : Except String Lines :=
          if n = 0 ∧ !forPush ∧ osArgs.length ≥ 3 then
            match DecodeString h.remoteHash with
            | (_, some err) => .error err
            | (sha, none) =>
              if sha.length ≠ 20 then .error "invalid hash length"
              else .ok (out ++ [h.remoteHash ++ " " ++ "refs/heads/master"])
          else .ok out
        match cloneStep with
        | .error err => .error err
        | .ok out1 =>
          match headRef.t with
          | ReferenceType.HashReference =>
            .ok (out1 ++ [EncodeToString headRef.h ++ " " ++ headRef.n])
          | ReferenceType.SymbolicReference =>
            .ok (out1 ++ ["@" ++ headRef.target ++ " " ++ headRef.n])
          | ReferenceType.InvalidReference => .ok out1

/-- The supplied hash is exactly 40 hexadecimal characters. -/
def isHex40 (s : String) : Bool :=
  s.data.length == 40 && s.data.all (fun c => (fromHexChar c).isSome)

/-- The supplied hash decodes without error to exactly 20 bytes. -/
def decodesTo20 (s : String) : Bool :=
  match DecodeString s with
  | (sha, none) => sha.length == 20
  | (_, some _) => false

/-- A repository with no branch, a direct (detached) HEAD and an empty tracker. -/
def emptyRepoDetached : Remote where
  Reference := fun name _ =>
    .ok { t := ReferenceType.HashReference, n := name, h := List.replicate 20 171, target := "" }
  Branches := .ok []
  GetRef := fun _ => .ok none

/-- A repository with no branch and HEAD pointing at `refs/heads/master`. -/
def emptyRepoSymbolic : Remote where
  Reference := fun name _ =>
    .ok { t := ReferenceType.SymbolicReference, n := name, h := [], target := "refs/heads/master" }
  Branches := .ok []
  GetRef := fun _ => .ok none

/-- A repository whose only branch is `refs/heads/master`, HEAD pointing at it. -/
def masterRepo : Remote where
  Reference := fun name _ =>
    .ok { t := ReferenceType.SymbolicReference, n := name, h := [], target := "refs/heads/master" }
  Branches := .ok [{ t := ReferenceType.HashReference, n := "refs/heads/master",
                     h := List.replicate 20 18, target := "" }]
  GetRef := fun _ => .ok none

/-! ## Push engine (`core/push.go`) -/

/-- An object identity as `doWork` handles it: the bytes `hex.DecodeString`
returns for a worklist entry, which are also the Tracker key. -/
abbrev Sha := List Byte

/-- The type `plumbing.ObjectType` of go-git. -/
inductive ObjectType where
  | InvalidObject
  | CommitObject
  | TreeObject
  | BlobObject
  | TagObject
  | OFSDeltaObject
  | REFDeltaObject
  | AnyObject
  deriving DecidableEq

/-- What `doWork` uses of a `plumbing.EncodedObject`: `Type()`, `Size()` and
the outcome of `Reader()` followed by `ioutil.ReadAll`, each of which may fail. -/
structure EncodedObject where
  typ : ObjectType
  size : Int
  reader : Except String (Except String (List Byte))

/-- The collaborators of the push engine. `HasEntry` and `AddEntry` are the
Tracker over its state `τ`; `CidFromHex` yields the `String()` form of the
expected CID; `EncodedObject` is `repo.Storer.EncodedObject(AnyObject, h)`;
`DagPut` is `api.DagPut(raw, "raw", "git")`; `ParseObjectFromBuffer` yields
the multihashes `link.Cid.Hash()` of `nd.Links()`; `mhDecode` yields the
`Digest` of `mh.Decode`. -/
structure Collab (τ : Type) where
  HasEntry : τ → Sha → Except String Bool
  AddEntry : τ → Sha → Except String τ
  CidFromHex : String → Except String String
  EncodedObject : List Byte → Except String GitRemoteIpld.EncodedObject
  DagPut : List Byte → Except String String
  ParseObjectFromBuffer : List Byte → Except String (List (List Byte))
  mhDecode : List Byte → Except String Sha

/-- Calls issued to the object store and to the content store, in order. A
fetch records the key asked for; a `DagPut` records the bytes submitted and
the identity of the worklist item they were built for. -/
inductive Event where
  | fetch (key : List Byte) : Event
  | dagPut (item : Sha) (raw : List Byte) : Event
  deriving DecidableEq

/-- The fields of `Push` that `doWork` reads and writes (`objectDir`, `gitDir`
and the logger are not used by it), with the record of calls issued. -/
structure Push (τ : Type) where
  done : Nat
  todoc : Nat
  todo : List String
  tracker : τ
  trace : List Event

/-- The constructor `NewPush`: empty worklist, `todoc = 1`. -/
def NewPush {τ : Type} (tracker : τ) : Push τ :=
  { done := 0, todoc := 1, todo := [], tracker := tracker, trace := [] }

/-- Go `plumbing.NewHash(s)`: the decoded bytes copied into a `[20]byte`. -/
def NewHash (s : String) : List Byte :=
  ((DecodeString s).1 ++ List.replicate 20 0).take 20

/-- The bytes of an ASCII string. -/
def asciiBytes (s : String) : List Byte :=
  s.data.map (fun ch => Fin.ofNat ch.toNat)

/-- The prefix `"<kind> <size>\x00"` that `doWork` puts before the payload;
empty for the object types the `switch` does not list. -/
def header (typ : ObjectType) (size : Int) : List Byte :=
  match typ with
  | ObjectType.CommitObject => asciiBytes ("commit " ++ toString size ++ "\x00")
  | ObjectType.TreeObject => asciiBytes ("tree " ++ toString size ++ "\x00")
  | ObjectType.BlobObject => asciiBytes ("blob " ++ toString size ++ "\x00")
  | ObjectType.TagObject => asciiBytes ("tag " ++ toString size ++ "\x00")
  | _ => []

/-- The loop over `links` in `processLinks`: the state reached and the error
returned, if any. -/
def linksLoop {τ : Type} (c : Collab τ) : List (List Byte) → Push τ → Push τ × Option String
  | [], p => (p, none)
  | mhash :: rest, p =>
    match c.mhDecode mhash with
    | .error err => (p, some ("push/process: " ++ err))
    | .ok digest =>
      match c.HasEntry p.tracker digest with
      | .error err => (p, some ("push/process: " ++ err))
      | .ok true => linksLoop c rest p
      | .ok false =>
        linksLoop c rest
          { p with todoc := (p.todoc + 1) % 2 ^ 64, todo := p.todo ++ [EncodeToString digest] }

/-- The method `Push.processLinks(object)`. -/
def processLinks {τ : Type} (c : Collab τ) (p : Push τ) (object : List Byte) :
    Push τ × Option String :=
  match c.ParseObjectFromBuffer object with
  | .error err => (p, some ("push/process: " ++ err))
  | .ok links => linksLoop c links p

/-- Outcome of one iteration of the loop of `doWork`: go on to `e.Next()`, or
return an error. -/
inductive Step (τ : Type) where
  | next (p : Push τ) : Step τ
  | abort (p : Push τ) (err : String) : Step τ

/-- The body of the `for` loop of `doWork` for the worklist entry `hash`. The
value `processLinks` returns is dropped, as at push.go line 118. -/
def doWorkBody {τ : Type} (c : Collab τ) (p : Push τ) (hash : String) : Step τ :=
  match DecodeString hash with
  | (_, some err) => Step.abort p ("push: " ++ err)
  | (sha, none) =>
    match c.HasEntry p.tracker sha with
    | .error err => Step.abort p ("push/process: " ++ err)
    | .ok true => Step.next { p with todoc := (p.todoc + 2 ^ 64 - 1) % 2 ^ 64 }
    | .ok false =>
      match c.CidFromHex hash with
      | .error err => Step.abort p ("push: " ++ err)
      | .ok expectedCid =>
        let p1 := { p with trace := p.trace ++ [Event.fetch (NewHash hash)] }
        match c.EncodedObject (NewHash hash) with
        | .error err => Step.abort p1 ("push: " ++ err)
        | .ok obj =>
          match obj.reader with
          | .error err => Step.abort p1 ("push: " ++ err)
          | .ok (.error err) => Step.abort p1 ("push: " ++ err)
          | .ok (.ok payload) =>
            let raw := header obj.typ obj.size ++ payload
            let p2 := { p1 with done := (p1.done + 1) % 2 ^ 64,
                                trace := p1.trace ++ [Event.dagPut sha raw] }
            match c.DagPut raw with
            | .error err => Step.abort p2 ("push: " ++ err)
            | .ok res =>
              match c.AddEntry p2.tracker sha with
              | .error err => Step.abort p2 ("push: " ++ err)
              | .ok tracker' =>
                let p3 := { p2 with tracker := tracker' }
                if expectedCid ≠ res then
                  Step.abort p3 ("CIDs don't match: expected " ++ expectedCid ++ ", got " ++ res)
                else
                  Step.next (processLinks c p3 raw).1

/-- The loop `for e := p.todo.Front(); e != nil; e = e.Next()` from the entry
at index `i`, for at most `fuel` iterations. The result is the final state and
the error returned (`none` is Go's `nil`); `none` overall means the fuel ran out. -/
def doWorkLoop {τ : Type} (c : Collab τ) : Nat → Nat → Push τ → Option (Push τ × Option String)
  | 0, _, _ => none
  | fuel + 1, i, p =>
    match p.todo[i]? with
    | none => some (p, none)
    | some hash =>
      match doWorkBody c p hash with
      | Step.abort p' err => some (p', some err)
      | Step.next p' => doWorkLoop c fuel (i + 1) p'

/-- The method `Push.doWork()`. -/
def doWork {τ : Type} (c : Collab τ) (fuel : Nat) (p : Push τ) : Option (Push τ × Option String) :=
  doWorkLoop c fuel 0 p

/-- The method `Push.PushHash(hash)`. -/
def PushHash {τ : Type} (c : Collab τ) (fuel : Nat) (p : Push τ) (hash : String) :
    Option (Push τ × Option String) :=
  doWork c fuel { p with todo := hash :: p.todo }

/-- The identities submitted to the content store, in order. -/
def puts : List Event → List Sha
  | [] => []
  | Event.dagPut item _ :: rest => item :: puts rest
  | Event.fetch _ :: rest => puts rest

/-- The keys fetched from the object store, in order. -/
def fetches : List Event → List (List Byte)
  | [] => []
  | Event.fetch key :: rest => key :: fetches rest
  | Event.dagPut _ _ :: rest => fetches rest

/-- The Tracker, read through the membership view `mem`, behaves as a set
whenever its calls succeed: `HasEntry` reports membership and `AddEntry`
adds exactly its argument. -/
structure TrackerSound {τ : Type} (c : Collab τ) (mem : τ → Sha → Bool) : Prop where
  has_ok : ∀ t s b, c.HasEntry t s = .ok b → b = mem t s
  add_ok : ∀ t s t', c.AddEntry t s = .ok t' → ∀ x, mem t' x = (decide (x = s) || mem t x)

/-- The Tracker is faithful: its calls succeed and it behaves as a set. -/
structure TrackerFaithful {τ : Type} (c : Collab τ) (mem : τ → Sha → Bool) : Prop where
  has : ∀ t s, c.HasEntry t s = .ok (mem t s)
  add : ∀ t s, ∃ t', c.AddEntry t s = .ok t' ∧ ∀ x, mem t' x = (decide (x = s) || mem t x)

/-- The Tracker remembers: after a successful `AddEntry(x)` every successful
`HasEntry(x)` is true. -/
structure TrackerRemembers {τ : Type} (c : Collab τ) (mem : τ → Sha → Bool) : Prop where
  has_ok : ∀ t s b, c.HasEntry t s = .ok b → mem t s = true → b = true
  add_ok : ∀ t s t', c.AddEntry t s = .ok t' → mem t' s = true ∧ ∀ x, mem t x = true → mem t' x = true

/-- The collaborators work and present the object graph `G` on the vertex
list `V`: identities are 20 bytes, children of vertices are vertices, and for
every worklist entry naming a vertex the expected CID is computed, the object
is fetched and read, the content store returns the expected CID for the
transcoded bytes, and the links parse and decode to the children. -/
structure Realizes {τ : Type} (c : Collab τ) (G : Sha → List Sha) (V : List Sha) : Prop where
  len : ∀ v ∈ V, v.length = 20
  closed : ∀ v ∈ V, ∀ w ∈ G v, w ∈ V
  item : ∀ hash v, DecodeString hash = (v, none) → v ∈ V →
    ∃ cid obj payload links,
      c.CidFromHex hash = .ok cid ∧
      c.EncodedObject v = .ok obj ∧
      obj.reader = .ok (.ok payload) ∧
      c.DagPut (header obj.typ obj.size ++ payload) = .ok cid ∧
      c.ParseObjectFromBuffer (header obj.typ obj.size ++ payload) = .ok links ∧
      List.Forall₂ (fun l w => c.mhDecode l = .ok w) links (G v)

/-- The identity `v` is reachable from `u` along a path of identities none of
which, `u` and `v` included, is in the set `T`. -/
inductive ReachAvoid (G : Sha → List Sha) (T : Sha → Bool) : Sha → Sha → Prop where
  | refl (v : Sha) : T v = false → ReachAvoid G T v v
  | step (u w v : Sha) : T u = false → w ∈ G u → ReachAvoid G T w v → ReachAvoid G T u v

/-- Children still to be discovered: the sum of `kids u` over the identities
of `U` that have not been submitted yet. -/
def weight (U : List Sha) (kids : Sha → Nat) (P : List Sha) : Nat :=
  ((U.dedup.filter (fun u => decide (u ∉ P))).map kids).sum

/-- The links the Link Extractor finds in the object stored under `key`; none
when the object is missing, unreadable or unparsable. -/
def linksOf {τ : Type} (c : Collab τ) (key : List Byte) : List (List Byte) :=
  match c.EncodedObject key with
  | .ok obj =>
    match obj.reader with
    | .ok (.ok payload) =>
      match c.ParseObjectFromBuffer (header obj.typ obj.size ++ payload) with
      | .ok links => links
      | .error _ => []
    | _ => []
  | .error _ => []

/-- The link digests of the object stored under `key` that decode. -/
def digestsOf {τ : Type} (c : Collab τ) (key : List Byte) : List Sha :=
  (linksOf c key).filterMap (fun l =>
    match c.mhDecode l with
    | .ok d => some d
    | .error _ => none)

/-- The identities that can enter the worklist: the root and the link digests
of the stored objects. -/
def worklistUniverse {τ : Type} (c : Collab τ) (store : List (List Byte)) (root : String) : List Sha :=
  (DecodeString root).1 :: store.flatMap (digestsOf c)

/-- The object-store key `doWork` derives from an identity. -/
def keyOf (s : Sha) : List Byte := (s ++ List.replicate 20 0).take 20

/-- A bound on the number of loop iterations of a fresh push of `root` over
the finite object store `store`. -/
def fuelBound {τ : Type} (c : Collab τ) (store : List (List Byte)) (root : String) : Nat :=
  weight (worklistUniverse c store root) (fun s => (linksOf c (keyOf s)).length) [] + 2

/-- The state of a push of the root identity `r` started with Tracker `t0`,
seen at loop index `i`: the pending entries name vertices; the Tracker holds
what it held at the start plus what was submitted; nothing was submitted
twice; the keys fetched are the identities submitted; every identity
reachable from `r` avoiding the initial Tracker was submitted or is reachable
from a pending entry avoiding the current Tracker; and what was submitted or
is pending outside the initial Tracker is reachable from `r` avoiding it. -/
structure PushInv {τ : Type} (mem : τ → Sha → Bool) (G : Sha → List Sha) (V : List Sha)
    (t0 : τ) (r : Sha) (i : Nat) (p : Push τ) : Prop where
  decodes : ∀ h ∈ p.todo.drop i, ∃ v ∈ V, DecodeString h = (v, none)
  tracked : ∀ x, mem p.tracker x = (mem t0 x || decide (x ∈ puts p.trace))
  nodup : (puts p.trace).Nodup
  fetched : fetches p.trace = puts p.trace
  pending : ∀ x, ReachAvoid G (mem t0) r x →
    x ∈ puts p.trace ∨
      ∃ h ∈ p.todo.drop i, ∃ q, DecodeString h = (q, none) ∧ ReachAvoid G (mem p.tracker) q x
  sound : ∀ x ∈ puts p.trace, ReachAvoid G (mem t0) r x
  queued : ∀ h ∈ p.todo.drop i, ∀ q, DecodeString h = (q, none) → mem t0 q = false →
    ReachAvoid G (mem t0) r q

/-- What a finished push of the root identity `r` started with Tracker `t0`
has done: it submitted exactly the identities reachable from `r` along
identities outside the initial Tracker, each once, fetched exactly those
keys, and the Tracker holds what it held plus what was submitted. -/
structure PushDone {τ : Type} (mem : τ → Sha → Bool) (G : Sha → List Sha)
    (t0 : τ) (r : Sha) (p : Push τ) : Prop where
  complete : ∀ x, ReachAvoid G (mem t0) r x → x ∈ puts p.trace
  sound : ∀ x ∈ puts p.trace, ReachAvoid G (mem t0) r x
  nodup : (puts p.trace).Nodup
  fetched : fetches p.trace = puts p.trace
  tracked : ∀ x, mem p.tracker x = (mem t0 x || decide (x ∈ puts p.trace))

/-- How many times the identity `x` was submitted to the content store. -/
def timesPut (x : Sha) (trace : List Event) : Nat :=
  ((puts trace).filter (fun y => decide (y = x))).length

/-! ## A small concrete world

Four objects in a diamond, `1 → 2, 3`, `2 → 4`, `3 → 4`. The identity of an
object is its number repeated 20 times; its payload is its own number
followed by the numbers of its children. -/

/-- The identity with every byte equal to `b`. -/
def toySha (b : Byte) : Sha := List.replicate 20 b

/-- The object store of the example. -/
def toyObject (key : List Byte) : Except String EncodedObject :=
  if key = toySha 1 then .ok ⟨ObjectType.CommitObject, 3, .ok (.ok [1, 2, 3])⟩
  else if key = toySha 2 then .ok ⟨ObjectType.TreeObject, 2, .ok (.ok [2, 4])⟩
  else if key = toySha 3 then .ok ⟨ObjectType.TreeObject, 2, .ok (.ok [3, 4])⟩
  else if key = toySha 4 then .ok ⟨ObjectType.BlobObject, 1, .ok (.ok [4])⟩
  else .error "object not found"

/-- The payload of transcoded bytes: what follows the first zero byte. -/
def toyPayload (raw : List Byte) : List Byte :=
  (raw.dropWhile (fun b => b ≠ 0)).drop 1

/-- The identity the example's content store derives from transcoded bytes. -/
def toyIdentity (raw : List Byte) : Sha :=
  toySha ((toyPayload raw).headD 0)

/-- The child relation of the example. -/
def toyGraph (v : Sha) : List Sha :=
  if v = toySha 1 then [toySha 2, toySha 3]
  else if v = toySha 2 then [toySha 4]
  else if v = toySha 3 then [toySha 4]
  else []

/-- The vertices of the example. -/
def toyVertices : List Sha := [toySha 1, toySha 2, toySha 3, toySha 4]

/-- The Tracker of the example keeps a list of identities. -/
def toyMem (t : List Sha) (s : Sha) : Bool := decide (s ∈ t)

/-- The collaborators of the example, all working. -/
def toyCollab : Collab (List Sha) where
  HasEntry := fun t s => .ok (toyMem t s)
  AddEntry := fun t s => .ok (s :: t)
  CidFromHex := fun hash =>
    match DecodeString hash with
    | (sha, none) => .ok ("z" ++ EncodeToString sha)
    | (_, some err) => .error err
  EncodedObject := toyObject
  DagPut := fun raw => .ok ("z" ++ EncodeToString (toyIdentity raw))
  ParseObjectFromBuffer := fun raw =>
    .ok (((toyPayload raw).drop 1).map (fun b => [17, 20] ++ toySha b))
  mhDecode := fun mhash =>
    match mhash with
    | 17 :: 20 :: digest => if digest.length = 20 then .ok digest else .error "bad length"
    | _ => .error "unknown multihash code"

/-- The example's collaborators with a Link Extractor that cannot parse. -/
def toyParseFails : Collab (List Sha) :=
  { toyCollab with ParseObjectFromBuffer := fun _ => .error "unrecognized object type" }

/-- The example's collaborators with a content store that refuses object 2. -/
def toyPutFails : Collab (List Sha) :=
  { toyCollab with
    DagPut := fun raw =>
      if toyIdentity raw = toySha 2 then .error "dag/put: connection refused"
      else toyCollab.DagPut raw }

/-- The example's collaborators with a content store that answers a wrong CID. -/
def toyWrongCid : Collab (List Sha) :=
  { toyCollab with DagPut := fun _ => .ok "zWrong" }

/-- The worklist entry naming object `b` of the example. -/
def toyHash (b : Byte) : String := EncodeToString (toySha b)

/-! ## Properties of the manifest tree -/

theorem GoMap.get_set (m : GoMap) (k k' : String) (v : Val) :
    (m.set k v).get k' = if k = k' then some v else m.get k' := by
  induction m with
  | nil => simp [GoMap.set, GoMap.get]
  | cons hd tl ih =>
    obtain ⟨k0, v0⟩ := hd
    by_cases h0 : k0 = k
    · subst h0
      by_cases h1 : k0 = k' <;> simp [GoMap.set, GoMap.get, h1]
    · by_cases h1 : k0 = k'
      · subst h1
        have : ¬ k = k0 := fun h => h0 h.symm
        simp [GoMap.set, GoMap.get, h0, this]
      · simp [GoMap.set, GoMap.get, h0, h1, ih]

theorem splitSlash_ne_nil (cs : List Char) : splitSlash cs ≠ [] := by
  induction cs with
  | nil => simp [splitSlash]
  | cons c cs ih =>
    unfold splitSlash
    split
    · simp
    · split <;> simp

theorem splitSlash_no_slash (cs : List Char) : ∀ seg ∈ splitSlash cs, '/' ∉ seg := by
  induction cs with
  | nil => simp [splitSlash]
  | cons c cs ih =>
    unfold splitSlash
    split
    · intro seg hseg
      rcases List.mem_cons.1 hseg with h | h
      · subst h; simp
      · exact ih seg h
    · rename_i hc
      split
      · intro seg hseg
        simp at hseg
        subst hseg
        simp
        exact fun h => hc h.symm
      · rename_i seg0 segs heq
        intro seg hseg
        rcases List.mem_cons.1 hseg with h | h
        · subst h
          have := ih seg0 (by rw [heq]; simp)
          simp
          exact ⟨fun h => hc h.symm, this⟩
        · exact ih seg (by rw [heq]; simp [h])

theorem splitSlash_join (cs : List Char) :
    List.intercalate ['/'] (splitSlash cs) = cs := by
  induction cs with
  | nil => simp [splitSlash, List.intercalate]
  | cons c cs ih =>
    unfold splitSlash
    split
    · rename_i hc
      subst hc
      have hne := splitSlash_ne_nil cs
      cases hs : splitSlash cs with
      | nil => exact absurd hs hne
      | cons s ss =>
        rw [hs] at ih
        simp [List.intercalate] at ih ⊢
        exact ih
    · cases hs : splitSlash cs with
      | nil => exact absurd hs (splitSlash_ne_nil cs)
      | cons s ss =>
        rw [hs] at ih
        simp [List.intercalate] at ih ⊢
        cases ss with
        | nil => simp at ih ⊢; exact ih
        | cons s2 ss2 => simp at ih ⊢; exact ih

theorem Split_ne_nil (r : String) : Split r ≠ [] := by
  simp [Split, splitSlash_ne_nil]

theorem Split_segsOK (r : String) : SegsOK (Split r) := by
  intro s hs
  simp only [Split, List.mem_map] at hs
  obtain ⟨cs, hcs, rfl⟩ := hs
  intro h
  have h2 : cs = ['/'] := by
    have := congrArg String.data h
    simpa using this
  have := splitSlash_no_slash r.data cs hcs
  rw [h2] at this
  simp at this

theorem Split_injective (r r' : String) (h : Split r = Split r') : r = r' := by
  have hinj : Function.Injective String.mk := by
    intro a b hab
    exact congrArg String.data hab
  have h2 : splitSlash r.data = splitSlash r'.data :=
    List.map_injective_iff.2 hinj h
  have h3 : r.data = r'.data := by
    rw [← splitSlash_join r.data, ← splitSlash_join r'.data, h2]
  cases r; cases r'; simp at h3; simp [h3]

theorem wellShaped_nil : WellShaped [] :=
  WellShaped.mk [] (by simp [GoMap.get]) (by simp [GoMap.get]) (by simp [GoMap.get])

theorem wellShaped_set_map (m child : GoMap) (k : String) (hk : k ≠ "/")
    (hm : WellShaped m) (hc : WellShaped child) : WellShaped (m.set k (Val.map child)) := by
  obtain ⟨_, h1, h2, h3⟩ := hm
  refine WellShaped.mk _ ?_ ?_ ?_
  · intro k' c' hget
    rw [GoMap.get_set] at hget
    split at hget
    · rename_i hkk; subst hkk; exact hk
    · exact h1 k' c' hget
  · intro k' c' hget
    rw [GoMap.get_set] at hget
    split at hget
    · simp at hget; subst hget; exact hc
    · exact h2 k' c' hget
  · intro k' s hget
    rw [GoMap.get_set] at hget
    split at hget
    · simp at hget
    · exact h3 k' s hget

theorem wellShaped_set_marker (m : GoMap) (cid : String) (hm : WellShaped m) :
    WellShaped (m.set "/" (Val.str cid)) := by
  obtain ⟨_, h1, h2, h3⟩ := hm
  refine WellShaped.mk _ ?_ ?_ ?_
  · intro k' c' hget
    rw [GoMap.get_set] at hget
    split at hget
    · simp at hget
    · exact h1 k' c' hget
  · intro k' c' hget
    rw [GoMap.get_set] at hget
    split at hget
    · simp at hget
    · exact h2 k' c' hget
  · intro k' s hget
    rw [GoMap.get_set] at hget
    split at hget
    · rename_i hkk; exact hkk.symm
    · exact h3 k' s hget

theorem GoMap.set_set (m : GoMap) (k : String) (v v' : Val) :
    (m.set k v).set k v' = m.set k v' := by
  induction m with
  | nil => simp [GoMap.set]
  | cons hd tl ih =>
    obtain ⟨k0, v0⟩ := hd
    by_cases h0 : k0 = k
    · simp [GoMap.set, h0]
    · simp [GoMap.set, h0, ih]

/-- The child map the loop of `insertRefIntoMap` descends into at `seg`. -/
theorem insertLoop_cons_eq (seg : String) (rest : List String) (m : GoMap) (cid : String)
    (hseg : seg ≠ "/") (hm : WellShaped m) :
    ∃ child, WellShaped child ∧
      (m.get seg = some (Val.map child) ∨ (m.get seg = none ∧ child = [])) ∧
      insertLoop (seg :: rest) m cid =
        (insertLoop rest child cid).map (fun child' => m.set seg (Val.map child')) := by
  obtain ⟨_, h1, h2, h3⟩ := hm
  cases hget : m.get seg with
  | none =>
    refine ⟨[], wellShaped_nil, Or.inr ⟨rfl, rfl⟩, ?_⟩
    simp only [insertLoop, hget, GoMap.get_set, if_true]
    cases insertLoop rest [] cid with
    | none => rfl
    | some c' =>
      simp only [Option.map_some', Option.some.injEq]
      exact GoMap.set_set m seg _ _
  | some v =>
    cases v with
    | str s => exact absurd (h3 seg s hget) hseg
    | map child =>
      refine ⟨child, h2 seg child hget, Or.inl rfl, ?_⟩
      simp [insertLoop, hget]

theorem insertLoop_wellShaped (segs : List String) :
    ∀ (m : GoMap) (cid : String), SegsOK segs → WellShaped m →
      ∃ m', insertLoop segs m cid = some m' ∧ WellShaped m' := by
  induction segs with
  | nil =>
    intro m cid _ hm
    exact ⟨_, rfl, wellShaped_set_marker m cid hm⟩
  | cons seg rest ih =>
    intro m cid hok hm
    have hseg : seg ≠ "/" := hok seg (by simp)
    have hrest : SegsOK rest := fun s hs => hok s (by simp [hs])
    obtain ⟨child, hcw, _, heq⟩ := insertLoop_cons_eq seg rest m cid hseg hm
    obtain ⟨c', hc', hcw'⟩ := ih child cid hrest hcw
    refine ⟨m.set seg (Val.map c'), ?_, wellShaped_set_map m c' seg hseg hm hcw'⟩
    rw [heq, hc']
    rfl

theorem buildManifest_snoc (ops : List (String × String)) (r c : String) :
    buildManifest (ops ++ [(r, c)]) =
      (buildManifest ops).bind (fun m => insertRefIntoMap m r c) := by
  simp [buildManifest, List.foldl_append]

theorem buildManifest_wellShaped (ops : List (String × String)) :
    ∃ m, buildManifest ops = some m ∧ WellShaped m := by
  induction ops using List.reverseRecOn with
  | nil => exact ⟨[], rfl, wellShaped_nil⟩
  | append_singleton ops op ih =>
    obtain ⟨m, hm, hw⟩ := ih
    obtain ⟨m', hm', hw'⟩ := insertLoop_wellShaped (Split op.1) m op.2 (Split_segsOK op.1) hw
    refine ⟨m', ?_, hw'⟩
    obtain ⟨r, c⟩ := op
    rw [buildManifest_snoc, hm]
    exact hm'

theorem nodeAt_nil_eq (p : List String) (n : GoMap) (h : nodeAt [] p = some n) :
    p = [] ∧ n = [] := by
  cases p with
  | nil => simp [nodeAt] at h; exact ⟨rfl, h⟩
  | cons s ps => simp [nodeAt, GoMap.get] at h

theorem resolveSegs_nil_map (p : List String) : resolveSegs [] p = none := by
  cases p with
  | nil => simp [resolveSegs, nodeAt, leafCid, GoMap.get]
  | cons s ps => simp [resolveSegs, nodeAt, GoMap.get]

/-- Point update on segment lists. -/
theorem resolveSegs_insertLoop (segs : List String) :
    ∀ (m m' : GoMap) (cid : String) (segs' : List String),
      SegsOK segs → SegsOK segs' → WellShaped m → insertLoop segs m cid = some m' →
      resolveSegs m' segs' = if segs' = segs then some cid else resolveSegs m segs' := by
  induction segs with
  | nil =>
    intro m m' cid segs' _ hok' _ hins
    simp only [insertLoop, Option.some.injEq] at hins
    subst hins
    cases segs' with
    | nil => simp [resolveSegs, nodeAt, leafCid, GoMap.get_set]
    | cons s' rest' =>
      have hs' : s' ≠ "/" := hok' s' (by simp)
      have hne : ¬ "/" = s' := fun h => hs' h.symm
      simp [resolveSegs, nodeAt, GoMap.get_set, hne]
  | cons seg rest ih =>
    intro m m' cid segs' hok hok' hm hins
    have hseg : seg ≠ "/" := hok seg (by simp)
    have hrest : SegsOK rest := fun s hs => hok s (by simp [hs])
    obtain ⟨child, hcw, hchild, heq⟩ := insertLoop_cons_eq seg rest m cid hseg hm
    rw [heq] at hins
    cases hc : insertLoop rest child cid with
    | none => rw [hc] at hins; simp at hins
    | some c' =>
      rw [hc] at hins
      simp only [Option.map_some', Option.some.injEq] at hins
      subst hins
      cases segs' with
      | nil =>
        simp [resolveSegs, nodeAt, leafCid, GoMap.get_set, hseg]
      | cons s' rest' =>
        have hrest' : SegsOK rest' := fun s hs => hok' s (by simp [hs])
        by_cases hss : seg = s'
        · subst hss
          have ihc := ih child c' cid rest' hrest hrest' hcw hc
          simp only [resolveSegs] at ihc
          simp only [resolveSegs, nodeAt, GoMap.get_set, if_true, List.cons.injEq, true_and]
          rw [ihc]
          rcases hchild with hg | ⟨hg, hnil⟩
          · simp [hg]
          · subst hnil
            have := resolveSegs_nil_map rest'
            simp only [resolveSegs] at this
            simp [hg, this]
        · have hne : ¬ s' = seg := fun h => hss h.symm
          simp [resolveSegs, nodeAt, GoMap.get_set, hss, hne]

theorem hasMarker_nil : hasMarker [] = false := rfl

theorem hasChild_nil (k : String) : hasChild [] k = false := by
  simp [hasChild, GoMap.get]

/-- A marker found after an insertion sits at the inserted path or was there before. -/
theorem insertLoop_marker (segs : List String) :
    ∀ (m m' : GoMap) (cid : String) (p : List String) (n' : GoMap),
      SegsOK segs → WellShaped m → insertLoop segs m cid = some m' →
      nodeAt m' p = some n' → hasMarker n' = true →
      p = segs ∨ ∃ n, nodeAt m p = some n ∧ hasMarker n = true := by
  induction segs with
  | nil =>
    intro m m' cid p n' _ _ hins hnode hmark
    simp only [insertLoop, Option.some.injEq] at hins
    subst hins
    cases p with
    | nil => exact Or.inl rfl
    | cons s ps =>
      right
      simp only [nodeAt, GoMap.get_set] at hnode
      by_cases hs : "/" = s
      · simp [hs] at hnode
      · simp only [hs, if_false] at hnode
        exact ⟨n', by simpa [nodeAt] using hnode, hmark⟩
  | cons seg rest ih =>
    intro m m' cid p n' hok hm hins hnode hmark
    have hseg : seg ≠ "/" := hok seg (by simp)
    have hrest : SegsOK rest := fun s hs => hok s (by simp [hs])
    obtain ⟨child, hcw, hchild, heq⟩ := insertLoop_cons_eq seg rest m cid hseg hm
    rw [heq] at hins
    cases hc : insertLoop rest child cid with
    | none => rw [hc] at hins; simp at hins
    | some c' =>
      rw [hc] at hins
      simp only [Option.map_some', Option.some.injEq] at hins
      subst hins
      cases p with
      | nil =>
        right
        simp only [nodeAt, Option.some.injEq] at hnode
        subst hnode
        refine ⟨m, rfl, ?_⟩
        simpa [hasMarker, GoMap.get_set, hseg] using hmark
      | cons s ps =>
        by_cases hss : seg = s
        · subst hss
          simp only [nodeAt, GoMap.get_set, if_true] at hnode
          rcases ih child c' cid ps n' hrest hcw hc hnode hmark with h | ⟨n, hn, hnm⟩
          · left; rw [h]
          · right
            rcases hchild with hg | ⟨_, hnil⟩
            · exact ⟨n, by simp [nodeAt, hg, hn], hnm⟩
            · subst hnil
              obtain ⟨_, hn2⟩ := nodeAt_nil_eq ps n hn
              subst hn2
              simp [hasMarker_nil] at hnm
        · right
          simp only [nodeAt, GoMap.get_set, hss, if_false] at hnode
          exact ⟨n', by simpa [nodeAt] using hnode, hmark⟩

/-- A child entry found after an insertion lies on the inserted path or was there before. -/
theorem insertLoop_child (segs : List String) :
    ∀ (m m' : GoMap) (cid : String) (p : List String) (n' : GoMap) (k : String),
      SegsOK segs → WellShaped m → insertLoop segs m cid = some m' →
      nodeAt m' p = some n' → hasChild n' k = true →
      (p ++ [k]) <+: segs ∨ ∃ n, nodeAt m p = some n ∧ hasChild n k = true := by
  induction segs with
  | nil =>
    intro m m' cid p n' k _ _ hins hnode hch
    simp only [insertLoop, Option.some.injEq] at hins
    subst hins
    right
    cases p with
    | nil =>
      simp only [nodeAt, Option.some.injEq] at hnode
      subst hnode
      refine ⟨m, rfl, ?_⟩
      simp only [hasChild, Bool.and_eq_true, bne_iff_ne, ne_eq] at hch ⊢
      obtain ⟨hk, hg⟩ := hch
      have hne : ¬ "/" = k := fun h => hk h.symm
      simp only [GoMap.get_set, hne, if_false] at hg
      exact ⟨hk, hg⟩
    | cons s ps =>
      simp only [nodeAt, GoMap.get_set] at hnode
      by_cases hs : "/" = s
      · simp [hs] at hnode
      · simp only [hs, if_false] at hnode
        exact ⟨n', by simpa [nodeAt] using hnode, hch⟩
  | cons seg rest ih =>
    intro m m' cid p n' k hok hm hins hnode hch
    have hseg : seg ≠ "/" := hok seg (by simp)
    have hrest : SegsOK rest := fun s hs => hok s (by simp [hs])
    obtain ⟨child, hcw, hchild, heq⟩ := insertLoop_cons_eq seg rest m cid hseg hm
    rw [heq] at hins
    cases hc : insertLoop rest child cid with
    | none => rw [hc] at hins; simp at hins
    | some c' =>
      rw [hc] at hins
      simp only [Option.map_some', Option.some.injEq] at hins
      subst hins
      cases p with
      | nil =>
        simp only [nodeAt, Option.some.injEq] at hnode
        subst hnode
        by_cases hks : seg = k
        · left; subst hks; simp
        · right
          refine ⟨m, rfl, ?_⟩
          simp only [hasChild, Bool.and_eq_true, bne_iff_ne, ne_eq] at hch ⊢
          obtain ⟨hk, hg⟩ := hch
          simp only [GoMap.get_set, hks, if_false] at hg
          exact ⟨hk, hg⟩
      | cons s ps =>
        by_cases hss : seg = s
        · subst hss
          simp only [nodeAt, GoMap.get_set, if_true] at hnode
          rcases ih child c' cid ps n' k hrest hcw hc hnode hch with h | ⟨n, hn, hnm⟩
          · left
            simpa using h
          · right
            rcases hchild with hg | ⟨_, hnil⟩
            · exact ⟨n, by simp [nodeAt, hg, hn], hnm⟩
            · subst hnil
              obtain ⟨_, hn2⟩ := nodeAt_nil_eq ps n hn
              subst hn2
              simp [hasChild_nil] at hnm
        · right
          simp only [nodeAt, GoMap.get_set, hss, if_false] at hnode
          exact ⟨n', by simpa [nodeAt] using hnode, hch⟩

theorem buildManifest_marker (ops : List (String × String)) :
    ∀ (m : GoMap) (p : List String) (n : GoMap), buildManifest ops = some m →
      nodeAt m p = some n → hasMarker n = true → ∃ op ∈ ops, p = Split op.1 := by
  induction ops using List.reverseRecOn with
  | nil =>
    intro m p n hm hnode hmark
    simp only [buildManifest, List.foldl_nil, Option.some.injEq] at hm
    subst hm
    obtain ⟨_, hn⟩ := nodeAt_nil_eq p n hnode
    subst hn
    simp [hasMarker_nil] at hmark
  | append_singleton ops op ih =>
    intro m p n hm hnode hmark
    obtain ⟨r, c⟩ := op
    obtain ⟨m0, hm0, hw0⟩ := buildManifest_wellShaped ops
    rw [buildManifest_snoc, hm0] at hm
    rcases insertLoop_marker (Split r) m0 m c p n (Split_segsOK r) hw0 hm hnode hmark with
      h | ⟨n0, hn0, hmk0⟩
    · exact ⟨(r, c), by simp, h⟩
    · obtain ⟨op, hop, hp⟩ := ih m0 p n0 hm0 hn0 hmk0
      exact ⟨op, by simp [hop], hp⟩

theorem buildManifest_child (ops : List (String × String)) :
    ∀ (m : GoMap) (p : List String) (n : GoMap) (k : String), buildManifest ops = some m →
      nodeAt m p = some n → hasChild n k = true → ∃ op ∈ ops, (p ++ [k]) <+: Split op.1 := by
  induction ops using List.reverseRecOn with
  | nil =>
    intro m p n k hm hnode hch
    simp only [buildManifest, List.foldl_nil, Option.some.injEq] at hm
    subst hm
    obtain ⟨_, hn⟩ := nodeAt_nil_eq p n hnode
    subst hn
    simp [hasChild_nil] at hch
  | append_singleton ops op ih =>
    intro m p n k hm hnode hch
    obtain ⟨r, c⟩ := op
    obtain ⟨m0, hm0, hw0⟩ := buildManifest_wellShaped ops
    rw [buildManifest_snoc, hm0] at hm
    rcases insertLoop_child (Split r) m0 m c p n k (Split_segsOK r) hw0 hm hnode hch with
      h | ⟨n0, hn0, hmk0⟩
    · exact ⟨(r, c), by simp, h⟩
    · obtain ⟨op, hop, hp⟩ := ih m0 p n0 k hm0 hn0 hmk0
      exact ⟨op, by simp [hop], hp⟩
/-! ## Properties of hexadecimal text -/

theorem fromHexChar_hexDigit : ∀ d < 16, fromHexChar (hexDigit d) = some d := by
  decide

theorem byte_of_digits (b : Byte) : (Fin.ofNat (b.val / 16 * 16 + b.val % 16) : Byte) = b := by
  apply Fin.ext
  simp [Fin.ofNat]
  omega

/-- Decoding the encoding of a byte sequence gives it back, without error. -/
theorem decodePairs_encodeChars (bs : List Byte) : decodePairs (encodeChars bs) = (bs, none) := by
  induction bs with
  | nil => rfl
  | cons b rest ih =>
    have h1 := fromHexChar_hexDigit (b.val / 16) (by omega)
    have h2 := fromHexChar_hexDigit (b.val % 16) (by omega)
    simp only [encodeChars, decodePairs, h1, h2, ih, byte_of_digits]

theorem DecodeString_EncodeToString (bs : List Byte) :
    DecodeString (EncodeToString bs) = (bs, none) := by
  simp [DecodeString, EncodeToString, decodePairs_encodeChars]

/-- A string decodes without error exactly when it has an even number of
characters, all of them hexadecimal digits; the result has half as many bytes. -/
theorem decodePairs_ok_iff (cs : List Char) :
    ((decodePairs cs).2 = none ↔
        (cs.length % 2 = 0 ∧ cs.all (fun c => (fromHexChar c).isSome) = true)) ∧
      ((decodePairs cs).2 = none → 2 * (decodePairs cs).1.length = cs.length) := by
  induction cs using decodePairs.induct with
  | case1 => simp [decodePairs]
  | case2 p h => simp [decodePairs, h]
  | case3 p x h => simp [decodePairs, h]
  | case4 p q rest a b ha hb ih =>
    obtain ⟨ih1, ih2⟩ := ih
    simp only [decodePairs, ha, hb]
    constructor
    · rw [ih1]
      simp [ha, hb]
      omega
    · intro h
      have := ih2 h
      simp
      omega
  | case5 p q rest hno =>
    have hd : decodePairs (p :: q :: rest) = ([], some "encoding/hex: invalid byte") := by
      cases hp : fromHexChar p with
      | none => simp [decodePairs, hp]
      | some a =>
        cases hq : fromHexChar q with
        | none => simp [decodePairs, hp, hq]
        | some b => exact absurd hq (hno a b hp)
    rw [hd]
    simp
    intro _ hp hq
    cases hpp : fromHexChar p with
    | none => rw [hpp] at hp; simp at hp
    | some a =>
      cases hqq : fromHexChar q with
      | none => rw [hqq] at hq; simp at hq
      | some b => exact absurd hqq (hno a b hpp)

/-- Decoding to exactly 20 bytes is the same as being 40 hexadecimal characters. -/
theorem decodesTo20_eq_isHex40 (s : String) : decodesTo20 s = isHex40 s := by
  obtain ⟨h1, h2⟩ := decodePairs_ok_iff s.data
  unfold decodesTo20 isHex40 DecodeString
  cases hd : decodePairs s.data with
  | mk sha err =>
    rw [hd] at h1 h2
    cases err with
    | none =>
      have hl := h2 rfl
      have ha := (h1.1 rfl).2
      simp only [ha, Bool.and_true]
      simp only at hl
      by_cases h20 : sha.length = 20
      · have : s.data.length = 40 := by omega
        simp [h20, this]
      · have : ¬ s.data.length = 40 := by omega
        have hlen40 : ¬ s.length = 40 := this
        simp [h20, hlen40]
    | some e =>
      simp only
      symm
      rw [Bool.and_eq_false_iff]
      by_cases hall : (s.data.all fun c => (fromHexChar c).isSome) = true
      · left
        have : ¬ (s.data.length % 2 = 0) := fun hlen => by
          have := h1.2 ⟨hlen, hall⟩
          simp at this
        simp only [beq_eq_false_iff_ne, ne_eq]
        omega
      · right
        simpa using hall


/-! ## Properties of the reference lister -/

/-- The branch loop fails when a branch is the target of a symbolic HEAD and
the supplied hash is malformed. -/
theorem forEachBranch_bad_hash (h : IpldHandler) (remote : Remote) (osArgs : List String)
    (headRef : Reference) (hsym : headRef.t = ReferenceType.SymbolicReference)
    (hargs : 3 ≤ osArgs.length) (hbad : decodesTo20 h.remoteHash = false)
    (refs : List Reference) :
    ∀ acc, (∃ ref ∈ refs, ref.n = headRef.target) →
      ∃ err, forEachBranch h remote false osArgs headRef refs acc = .error err := by
  induction refs with
  | nil => intro acc ⟨ref, href, _⟩; simp at href
  | cons r rest ih =>
    intro acc hex
    simp only [forEachBranch]
    cases hstep : listBranch h remote false osArgs headRef acc r with
    | error e => exact ⟨e, rfl⟩
    | ok acc' =>
      simp only
      obtain ⟨ref, href, hn⟩ := hex
      rcases List.mem_cons.1 href with heq | hin
      · subst heq
        exfalso
        unfold listBranch at hstep
        cases hg : remote.GetRef ref.n with
        | error e => simp [hg] at hstep
        | ok tracked =>
          simp only [hg] at hstep
          have hcond : (!false) = true ∧ headRef.target = ref.n ∧
              headRef.t = ReferenceType.SymbolicReference ∧ osArgs.length ≥ 3 :=
            ⟨rfl, hn.symm, hsym, hargs⟩
          rw [if_pos hcond] at hstep
          unfold decodesTo20 at hbad
          cases hd : DecodeString h.remoteHash with
          | mk sha err =>
            rw [hd] at hstep hbad
            cases err with
            | some e => simp at hstep
            | none =>
              simp only [beq_eq_false_iff_ne, ne_eq] at hbad
              simp [hbad] at hstep
      · exact ih acc' ⟨ref, hin, hn⟩

theorem forEachBranch_nil (h : IpldHandler) (remote : Remote) (forPush : Bool)
    (osArgs : List String) (headRef : Reference) (acc : List String × Nat) :
    forEachBranch h remote forPush osArgs headRef [] acc = .ok acc := rfl

/-! ## Properties of the push engine -/

theorem puts_append (a b : List Event) : puts (a ++ b) = puts a ++ puts b := by
  induction a with
  | nil => rfl
  | cons e rest ih => cases e <;> simp [puts, ih]

theorem fetches_append (a b : List Event) : fetches (a ++ b) = fetches a ++ fetches b := by
  induction a with
  | nil => rfl
  | cons e rest ih => cases e <;> simp [fetches, ih]

theorem drop_of_getElem? {l : List String} {i : Nat} {a : String} (h : l[i]? = some a) :
    l.drop i = a :: l.drop (i + 1) := by
  obtain ⟨hlt, heq⟩ := List.getElem?_eq_some.1 h
  rw [List.drop_eq_getElem_cons hlt, heq]

/-- `NewHash` of a 20-byte identity is the identity. -/
theorem NewHash_of_decode (hash : String) (v : Sha) (hd : DecodeString hash = (v, none))
    (hlen : v.length = 20) : NewHash hash = v := by
  unfold NewHash
  rw [hd]
  simp only
  rw [List.take_append_of_le_length (by omega)]
  exact List.take_of_length_le (by omega)

/-- The loop of `processLinks` touches neither the Tracker nor the record of
calls nor `done`. -/
theorem linksLoop_frame {τ : Type} (c : Collab τ) (links : List (List Byte)) :
    ∀ p : Push τ, (linksLoop c links p).1.tracker = p.tracker ∧
      (linksLoop c links p).1.trace = p.trace ∧ (linksLoop c links p).1.done = p.done := by
  induction links with
  | nil => intro p; simp [linksLoop]
  | cons l rest ih =>
    intro p
    cases h1 : c.mhDecode l with
    | error e => simp [linksLoop, h1]
    | ok d =>
      cases h2 : c.HasEntry p.tracker d with
      | error e => simp [linksLoop, h1, h2]
      | ok b =>
        cases b with
        | true => simp only [linksLoop, h1, h2]; exact ih p
        | false => simp only [linksLoop, h1, h2]; exact ih _

/-- The loop of `processLinks` only appends to the worklist, at most one entry
per link, each the hexadecimal text of a decoded link digest. -/
theorem linksLoop_todo {τ : Type} (c : Collab τ) (links : List (List Byte)) :
    ∀ p : Push τ, ∃ new, (linksLoop c links p).1.todo = p.todo ++ new ∧
      new.length ≤ links.length ∧
      ∀ h ∈ new, ∃ l ∈ links, ∃ d, c.mhDecode l = .ok d ∧ h = EncodeToString d := by
  induction links with
  | nil => intro p; exact ⟨[], by simp [linksLoop]⟩
  | cons l rest ih =>
    intro p
    cases h1 : c.mhDecode l with
    | error e => exact ⟨[], by simp [linksLoop, h1]⟩
    | ok d =>
      cases h2 : c.HasEntry p.tracker d with
      | error e => exact ⟨[], by simp [linksLoop, h1, h2]⟩
      | ok b =>
        cases b with
        | true =>
          obtain ⟨new, hn1, hn2, hn3⟩ := ih p
          refine ⟨new, by simp only [linksLoop, h1, h2]; exact hn1, by simp; omega, ?_⟩
          intro h hh
          obtain ⟨l', hl', d', hd', he⟩ := hn3 h hh
          exact ⟨l', by simp [hl'], d', hd', he⟩
        | false =>
          obtain ⟨new, hn1, hn2, hn3⟩ :=
            ih { p with todoc := (p.todoc + 1) % 2 ^ 64, todo := p.todo ++ [EncodeToString d] }
          refine ⟨EncodeToString d :: new, ?_, by simp; omega, ?_⟩
          · simp only [linksLoop, h1, h2]
            rw [hn1]
            simp
          · intro h hh
            rcases List.mem_cons.1 hh with heq | hin
            · exact ⟨l, by simp, d, h1, heq⟩
            · obtain ⟨l', hl', d', hd', he⟩ := hn3 h hin
              exact ⟨l', by simp [hl'], d', hd', he⟩

/-- With a faithful Tracker and links that decode, the loop of `processLinks`
appends exactly the children that are not in the Tracker, in order. -/
theorem linksLoop_exact {τ : Type} (c : Collab τ) (mem : τ → Sha → Bool)
    (hf : TrackerFaithful c mem) (links : List (List Byte)) (ws : List Sha)
    (hl : List.Forall₂ (fun l w => c.mhDecode l = .ok w) links ws) :
    ∀ p : Push τ, (linksLoop c links p).2 = none ∧
      (linksLoop c links p).1.todo =
        p.todo ++ (ws.filter (fun w => !mem p.tracker w)).map EncodeToString := by
  induction hl with
  | nil => intro p; simp [linksLoop]
  | @cons l w links' ws' hlw _ ih =>
    intro p
    have h2 := hf.has p.tracker w
    cases hb : mem p.tracker w with
    | true =>
      rw [hb] at h2
      simp only [linksLoop, hlw, h2]
      simpa [hb] using ih p
    | false =>
      rw [hb] at h2
      simp only [linksLoop, hlw, h2]
      have := ih { p with todoc := (p.todoc + 1) % 2 ^ 64, todo := p.todo ++ [EncodeToString w] }
      simpa [hb] using this

theorem processLinks_frame {τ : Type} (c : Collab τ) (p : Push τ) (raw : List Byte) :
    (processLinks c p raw).1.tracker = p.tracker ∧
      (processLinks c p raw).1.trace = p.trace ∧ (processLinks c p raw).1.done = p.done := by
  unfold processLinks
  cases c.ParseObjectFromBuffer raw with
  | error e => simp
  | ok links => exact linksLoop_frame c links p

/-- What `processLinks` appends: nothing, or at most one entry per parsed link,
each the hexadecimal text of a decoded link digest. -/
theorem processLinks_todo {τ : Type} (c : Collab τ) (p : Push τ) (raw : List Byte) :
    ∃ new, (processLinks c p raw).1.todo = p.todo ++ new ∧
      (new = [] ∨ ∃ links, c.ParseObjectFromBuffer raw = .ok links ∧
        new.length ≤ links.length ∧
        ∀ h ∈ new, ∃ l ∈ links, ∃ d, c.mhDecode l = .ok d ∧ h = EncodeToString d) := by
  unfold processLinks
  cases hp : c.ParseObjectFromBuffer raw with
  | error e => exact ⟨[], by simp⟩
  | ok links =>
    obtain ⟨new, h1, h2, h3⟩ := linksLoop_todo c links p
    exact ⟨new, h1, Or.inr ⟨links, rfl, h2, h3⟩⟩

/-- The two ways an iteration of `doWork` goes on to the next entry: the
entry is in the Tracker and is skipped, or every call succeeded, the CIDs
agree and the links were processed. -/
theorem doWorkBody_next_cases {τ : Type} (c : Collab τ) (p p' : Push τ) (hash : String)
    (h : doWorkBody c p hash = Step.next p') :
    ∃ sha, DecodeString hash = (sha, none) ∧
      ((c.HasEntry p.tracker sha = .ok true ∧
          p' = { p with todoc := (p.todoc + 2 ^ 64 - 1) % 2 ^ 64 }) ∨
       (c.HasEntry p.tracker sha = .ok false ∧ ∃ cid obj payload t',
          c.CidFromHex hash = .ok cid ∧ c.EncodedObject (NewHash hash) = .ok obj ∧
          obj.reader = .ok (.ok payload) ∧
          c.DagPut (header obj.typ obj.size ++ payload) = .ok cid ∧
          c.AddEntry p.tracker sha = .ok t' ∧
          p' = (processLinks c
                  { p with done := (p.done + 1) % 2 ^ 64, tracker := t',
                           trace := p.trace ++ [Event.fetch (NewHash hash)] ++
                             [Event.dagPut sha (header obj.typ obj.size ++ payload)] }
                  (header obj.typ obj.size ++ payload)).1)) := by
  unfold doWorkBody at h
  cases hd : DecodeString hash with
  | mk sha err =>
    rw [hd] at h
    cases err with
    | some e => simp at h
    | none =>
      refine ⟨sha, rfl, ?_⟩
      simp only at h
      cases hh : c.HasEntry p.tracker sha with
      | error e => simp [hh] at h
      | ok b =>
        cases b with
        | true =>
          left
          simp only [hh, Step.next.injEq] at h
          exact ⟨rfl, h.symm⟩
        | false =>
          right
          refine ⟨rfl, ?_⟩
          simp only [hh] at h
          cases hc : c.CidFromHex hash with
          | error e => simp [hc] at h
          | ok cid =>
            simp only [hc] at h
            cases ho : c.EncodedObject (NewHash hash) with
            | error e => simp [ho] at h
            | ok obj =>
              simp only [ho] at h
              cases hr : obj.reader with
              | error e => simp [hr] at h
              | ok rd =>
                cases rd with
                | error e => simp [hr] at h
                | ok payload =>
                  simp only [hr] at h
                  cases hp : c.DagPut (header obj.typ obj.size ++ payload) with
                  | error e => simp [hp] at h
                  | ok res =>
                    simp only [hp] at h
                    cases ha : c.AddEntry p.tracker sha with
                    | error e => simp [ha] at h
                    | ok t' =>
                      simp only [ha] at h
                      by_cases hne : cid = res
                      · subst hne
                        simp only [ne_eq, not_true_eq_false, if_false, Step.next.injEq] at h
                        exact ⟨cid, obj, payload, t', rfl, rfl, hr, hp, rfl, h.symm⟩
                      · simp [hne] at h


/-- An iteration of `doWork` that returns an error leaves the worklist as it
was; it has issued no call, or the fetch alone, or the fetch and the
`DagPut`, and in the last case only it may have added the entry's identity
to the Tracker. -/
theorem doWorkBody_abort_cases {τ : Type} (c : Collab τ) (p p' : Push τ) (hash err : String)
    (h : doWorkBody c p hash = Step.abort p' err) :
    p'.todo = p.todo ∧
      ((p'.trace = p.trace ∧ p'.tracker = p.tracker) ∨
       ∃ sha, DecodeString hash = (sha, none) ∧ c.HasEntry p.tracker sha = .ok false ∧
         ((p'.trace = p.trace ++ [Event.fetch (NewHash hash)] ∧ p'.tracker = p.tracker) ∨
          ∃ raw, p'.trace = p.trace ++ [Event.fetch (NewHash hash)] ++ [Event.dagPut sha raw] ∧
            (p'.tracker = p.tracker ∨ c.AddEntry p.tracker sha = .ok p'.tracker))) := by
  unfold doWorkBody at h
  cases hd : DecodeString hash with
  | mk sha e0 =>
    rw [hd] at h
    cases e0 with
    | some e =>
      simp only [Step.abort.injEq] at h
      obtain ⟨h1, _⟩ := h
      subst h1
      exact ⟨rfl, Or.inl ⟨rfl, rfl⟩⟩
    | none =>
      simp only at h
      cases hh : c.HasEntry p.tracker sha with
      | error e =>
        simp only [hh, Step.abort.injEq] at h
        obtain ⟨h1, _⟩ := h
        subst h1
        exact ⟨rfl, Or.inl ⟨rfl, rfl⟩⟩
      | ok b =>
        cases b with
        | true => simp [hh] at h
        | false =>
          simp only [hh] at h
          cases hc : c.CidFromHex hash with
          | error e =>
            simp only [hc, Step.abort.injEq] at h
            obtain ⟨h1, _⟩ := h
            subst h1
            exact ⟨rfl, Or.inl ⟨rfl, rfl⟩⟩
          | ok cid =>
            simp only [hc] at h
            cases ho : c.EncodedObject (NewHash hash) with
            | error e =>
              simp only [ho, Step.abort.injEq] at h
              obtain ⟨h1, _⟩ := h
              subst h1
              exact ⟨rfl, Or.inr ⟨sha, rfl, hh, Or.inl ⟨rfl, rfl⟩⟩⟩
            | ok obj =>
              simp only [ho] at h
              cases hr : obj.reader with
              | error e =>
                simp only [hr, Step.abort.injEq] at h
                obtain ⟨h1, _⟩ := h
                subst h1
                exact ⟨rfl, Or.inr ⟨sha, rfl, hh, Or.inl ⟨rfl, rfl⟩⟩⟩
              | ok rd =>
                cases rd with
                | error e =>
                  simp only [hr, Step.abort.injEq] at h
                  obtain ⟨h1, _⟩ := h
                  subst h1
                  exact ⟨rfl, Or.inr ⟨sha, rfl, hh, Or.inl ⟨rfl, rfl⟩⟩⟩
                | ok payload =>
                  simp only [hr] at h
                  cases hp : c.DagPut (header obj.typ obj.size ++ payload) with
                  | error e =>
                    simp only [hp, Step.abort.injEq] at h
                    obtain ⟨h1, _⟩ := h
                    subst h1
                    exact ⟨rfl, Or.inr ⟨sha, rfl, hh, Or.inr ⟨_, rfl, Or.inl rfl⟩⟩⟩
                  | ok res =>
                    simp only [hp] at h
                    cases ha : c.AddEntry p.tracker sha with
                    | error e =>
                      simp only [ha, Step.abort.injEq] at h
                      obtain ⟨h1, _⟩ := h
                      subst h1
                      exact ⟨rfl, Or.inr ⟨sha, rfl, hh, Or.inr ⟨_, rfl, Or.inl rfl⟩⟩⟩
                    | ok t' =>
                      simp only [ha] at h
                      by_cases hne : cid = res
                      · simp [hne] at h
                      · simp only [ne_eq, hne, not_false_eq_true, if_true,
                          Step.abort.injEq] at h
                        obtain ⟨h1, _⟩ := h
                        subst h1
                        exact ⟨rfl, Or.inr ⟨sha, rfl, hh, Or.inr ⟨_, rfl, Or.inr ha⟩⟩⟩

theorem filter_not_mem_snoc (L P : List Sha) (s : Sha) (hs : s ∉ L) :
    L.filter (fun u => decide (u ∉ P ++ [s])) = L.filter (fun u => decide (u ∉ P)) := by
  apply List.filter_congr
  intro u hu
  have : u ≠ s := fun h => hs (h ▸ hu)
  simp [this]

theorem sum_filter_snoc (L : List Sha) (hn : L.Nodup) (kids : Sha → Nat) (P : List Sha) (s : Sha)
    (hs : s ∈ L) (hP : s ∉ P) :
    ((L.filter (fun u => decide (u ∉ P ++ [s]))).map kids).sum + kids s =
      ((L.filter (fun u => decide (u ∉ P))).map kids).sum := by
  induction L with
  | nil => simp at hs
  | cons a rest ih =>
    obtain ⟨ha, hrest⟩ := List.nodup_cons.1 hn
    by_cases has : a = s
    · subst has
      rw [List.filter_cons_of_neg (by simp), List.filter_cons_of_pos (by simpa using hP),
        filter_not_mem_snoc rest P a ha]
      simp only [List.map_cons, List.sum_cons]
      omega
    · have hs' : s ∈ rest := by
        rcases List.mem_cons.1 hs with h | h
        · exact absurd h.symm has
        · exact h
      have ih' := ih hrest hs'
      by_cases haP : a ∈ P
      · rw [List.filter_cons_of_neg (by simp [haP]), List.filter_cons_of_neg (by simp [haP])]
        exact ih'
      · rw [List.filter_cons_of_pos (by simp [haP, has]),
          List.filter_cons_of_pos (by simpa using haP)]
        simp only [List.map_cons, List.sum_cons]
        omega

/-- Submitting an identity of `U` for the first time pays for its children. -/
theorem weight_snoc (U : List Sha) (kids : Sha → Nat) (P : List Sha) (s : Sha)
    (hs : s ∈ U) (hP : s ∉ P) : weight U kids (P ++ [s]) + kids s = weight U kids P := by
  unfold weight
  exact sum_filter_snoc U.dedup (List.nodup_dedup U) kids P s (List.mem_dedup.2 hs) hP

/-- Summary of an iteration that goes on: a skip changes nothing but `todoc`;
otherwise the identity was added to the Tracker, the fetch and the `DagPut`
were recorded and the worklist was extended at its back. -/
theorem doWorkBody_next_summary {τ : Type} (c : Collab τ) (p p' : Push τ) (hash : String)
    (h : doWorkBody c p hash = Step.next p') :
    ∃ sha, DecodeString hash = (sha, none) ∧
      ((c.HasEntry p.tracker sha = .ok true ∧ p'.todo = p.todo ∧ p'.tracker = p.tracker ∧
          p'.trace = p.trace) ∨
       (c.HasEntry p.tracker sha = .ok false ∧ ∃ raw,
          c.AddEntry p.tracker sha = .ok p'.tracker ∧
          p'.trace = p.trace ++ [Event.fetch (NewHash hash)] ++ [Event.dagPut sha raw] ∧
          ∃ new, p'.todo = p.todo ++ new)) := by
  obtain ⟨sha, hd, hcase⟩ := doWorkBody_next_cases c p p' hash h
  refine ⟨sha, hd, ?_⟩
  rcases hcase with ⟨hh, hp'⟩ | ⟨hh, cid, obj, payload, t', _, _, _, _, ha, hp'⟩
  · left
    subst hp'
    exact ⟨hh, rfl, rfl, rfl⟩
  · right
    refine ⟨hh, header obj.typ obj.size ++ payload, ?_, ?_, ?_⟩
    · rw [hp', (processLinks_frame c _ _).1]
      exact ha
    · rw [hp', (processLinks_frame c _ _).2.1]
    · obtain ⟨new, hnew, _⟩ := processLinks_todo c
        { p with done := (p.done + 1) % 2 ^ 64, tracker := t',
                 trace := p.trace ++ [Event.fetch (NewHash hash)] ++
                   [Event.dagPut sha (header obj.typ obj.size ++ payload)] }
        (header obj.typ obj.size ++ payload)
      exact ⟨new, by rw [hp', hnew]⟩

theorem puts_snoc_fetch_put (t : List Event) (k : List Byte) (s : Sha) (raw : List Byte) :
    puts (t ++ [Event.fetch k] ++ [Event.dagPut s raw]) = puts t ++ [s] := by
  simp [puts_append, puts]

theorem puts_snoc_fetch (t : List Event) (k : List Byte) :
    puts (t ++ [Event.fetch k]) = puts t := by
  simp [puts_append, puts]

/-- The loop of `doWork` finishes within the fuel given by the pending entries
and the children still to be discovered, provided every expansion of an
identity `s` of `U` appends at most `kids s` entries, all naming identities
of `U`, and the Tracker remembers what was added. The final worklist is
bounded and no identity is submitted twice. -/
theorem doWorkLoop_terminates {τ : Type} (c : Collab τ) (mem : τ → Sha → Bool)
    (hrem : TrackerRemembers c mem) (U : List Sha) (kids : Sha → Nat)
    (hexp : ∀ (p p' : Push τ) (hash : String) (s : Sha), DecodeString hash = (s, none) → s ∈ U →
      c.HasEntry p.tracker s = .ok false → doWorkBody c p hash = Step.next p' →
      ∃ new, p'.todo = p.todo ++ new ∧ new.length ≤ kids s ∧
        ∀ h ∈ new, ∀ s', DecodeString h = (s', none) → s' ∈ U) :
    ∀ (fuel i : Nat) (p : Push τ),
      (∀ h ∈ p.todo.drop i, ∀ s, DecodeString h = (s, none) → s ∈ U) →
      (∀ x ∈ puts p.trace, mem p.tracker x = true) →
      (puts p.trace).Nodup →
      (p.todo.length - i) + weight U kids (puts p.trace) < fuel →
      ∃ res, doWorkLoop c fuel i p = some res ∧
        res.1.todo.length ≤ p.todo.length + weight U kids (puts p.trace) ∧
        (puts res.1.trace).Nodup := by
  intro fuel
  induction fuel with
  | zero => intro i p _ _ _ hlt; omega
  | succ fuel ih =>
    intro i p hU hmem hnd hlt
    unfold doWorkLoop
    cases hget : p.todo[i]? with
    | none => exact ⟨(p, none), rfl, by simp, hnd⟩
    | some hash =>
      have hdrop := drop_of_getElem? hget
      have hilt : i < p.todo.length := (List.getElem?_eq_some.1 hget).1
      have hhash : hash ∈ p.todo.drop i := by rw [hdrop]; simp
      simp only
      cases hb : doWorkBody c p hash with
      | abort p' err =>
        refine ⟨(p', some err), rfl, ?_, ?_⟩
        · have := (doWorkBody_abort_cases c p p' hash err hb).1
          simp only [this]
          omega
        · rcases (doWorkBody_abort_cases c p p' hash err hb).2 with
            ⟨ht, _⟩ | ⟨sha, hd, hh, hcase⟩
          · simp only [ht]; exact hnd
          · rcases hcase with ⟨ht, _⟩ | ⟨raw, ht, _⟩
            · simp only [ht, puts_snoc_fetch]; exact hnd
            · simp only [ht, puts_snoc_fetch_put]
              have hnot : sha ∉ puts p.trace := by
                intro hin
                have := hrem.has_ok _ _ _ hh (hmem sha hin)
                simp at this
              exact List.Nodup.append hnd (List.nodup_singleton sha)
                (by simpa using hnot)
      | next p' =>
        simp only
        obtain ⟨sha, hd, hcase⟩ := doWorkBody_next_summary c p p' hash hb
        have hsU : sha ∈ U := hU hash hhash sha hd
        rcases hcase with ⟨_, htodo, htr, htrace⟩ | ⟨hh, raw, hadd, htrace, _⟩
        · have hU' : ∀ h ∈ p'.todo.drop (i + 1), ∀ s, DecodeString h = (s, none) → s ∈ U := by
            intro h hin
            rw [htodo] at hin
            exact hU h (by rw [hdrop]; simp [hin])
          obtain ⟨res, hres, hlen, hnd'⟩ := ih (i + 1) p' hU'
            (by rw [htrace, htr]; exact hmem) (by rw [htrace]; exact hnd)
            (by rw [htodo, htrace]; omega)
          exact ⟨res, hres, by rw [htodo, htrace] at hlen; exact hlen, hnd'⟩
        · obtain ⟨new, htodo, hnl, hnewU⟩ := hexp p p' hash sha hd hsU hh hb
          have hnot : sha ∉ puts p.trace := by
            intro hin
            have := hrem.has_ok _ _ _ hh (hmem sha hin)
            simp at this
          have hputs : puts p'.trace = puts p.trace ++ [sha] := by
            rw [htrace, puts_snoc_fetch_put]
          have hw := weight_snoc U kids (puts p.trace) sha hsU hnot
          have hU' : ∀ h ∈ p'.todo.drop (i + 1), ∀ s, DecodeString h = (s, none) → s ∈ U := by
            intro h hin s hs
            rw [htodo, List.drop_append_of_le_length (by omega)] at hin
            rcases List.mem_append.1 hin with hin | hin
            · exact hU h (by rw [hdrop]; simp [hin]) s hs
            · exact hnewU h hin s hs
          have hmem' : ∀ x ∈ puts p'.trace, mem p'.tracker x = true := by
            intro x hx
            rw [hputs] at hx
            obtain ⟨hself, hmono⟩ := hrem.add_ok _ _ _ hadd
            rcases List.mem_append.1 hx with hx | hx
            · exact hmono x (hmem x hx)
            · simp at hx; subst hx; exact hself
          have hnd' : (puts p'.trace).Nodup := by
            rw [hputs]
            exact List.Nodup.append hnd (List.nodup_singleton sha) (by simpa using hnot)
          obtain ⟨res, hres, hlen, hndr⟩ := ih (i + 1) p' hU' hmem' hnd'
            (by rw [htodo, hputs]; simp only [List.length_append]; omega)
          refine ⟨res, hres, ?_, hndr⟩
          rw [htodo, hputs] at hlen
          simp only [List.length_append] at hlen
          omega

/-! ### Reachability -/

theorem ReachAvoid.source_avoid {G : Sha → List Sha} {T : Sha → Bool} {u v : Sha}
    (h : ReachAvoid G T u v) : T u = false := by
  cases h with
  | refl _ h0 => exact h0
  | step _ _ _ h0 _ _ => exact h0

theorem ReachAvoid.target_avoid {G : Sha → List Sha} {T : Sha → Bool} {u v : Sha}
    (h : ReachAvoid G T u v) : T v = false := by
  induction h with
  | refl _ h0 => exact h0
  | step _ _ _ _ _ _ ih => exact ih

theorem ReachAvoid.snoc {G : Sha → List Sha} {T : Sha → Bool} {u v w : Sha}
    (h : ReachAvoid G T u v) (hw : w ∈ G v) (hT : T w = false) : ReachAvoid G T u w := by
  induction h with
  | refl v h0 => exact ReachAvoid.step v w w h0 hw (ReachAvoid.refl w hT)
  | step u m v h0 hm _ ih => exact ReachAvoid.step u m w h0 hm (ih hw)

/-- Adding `s` to the avoided set: the target is `s`, or the path still
avoids the larger set, or its part after the last visit of `s` starts at a
child of `s` and avoids the larger set. -/
theorem ReachAvoid.split {G : Sha → List Sha} {T T' : Sha → Bool} {q x : Sha} (s : Sha)
    (hT' : ∀ y, T' y = (decide (y = s) || T y)) (h : ReachAvoid G T q x) :
    x = s ∨ ReachAvoid G T' q x ∨ ∃ w ∈ G s, ReachAvoid G T' w x := by
  induction h with
  | refl v h0 =>
    by_cases hv : v = s
    · exact Or.inl hv
    · exact Or.inr (Or.inl (ReachAvoid.refl v (by rw [hT']; simp [hv, h0])))
  | step u w v h0 hw _ ih =>
    rcases ih with h1 | h2 | h3
    · exact Or.inl h1
    · by_cases hu : u = s
      · subst hu
        exact Or.inr (Or.inr ⟨w, hw, h2⟩)
      · exact Or.inr (Or.inl (ReachAvoid.step u w v (by rw [hT']; simp [hu, h0]) hw h2))
    · exact Or.inr (Or.inr h3)

/-! ### A push with working collaborators -/

theorem TrackerFaithful.remembers {τ : Type} {c : Collab τ} {mem : τ → Sha → Bool}
    (hf : TrackerFaithful c mem) : TrackerRemembers c mem where
  has_ok := by
    intro t s b hb hm
    rw [hf.has t s] at hb
    simp only [Except.ok.injEq] at hb
    rw [← hb, hm]
  add_ok := by
    intro t s t' ht
    obtain ⟨t'', h1, h2⟩ := hf.add t s
    rw [h1] at ht
    simp only [Except.ok.injEq] at ht
    subst ht
    constructor
    · rw [h2]; simp
    · intro x hx
      rw [h2, hx]; simp

/-- With working collaborators an iteration on an entry naming a vertex
always goes on: it skips a tracked identity, and otherwise adds it to the
Tracker, records its fetch and `DagPut`, and appends exactly its untracked
children. -/
theorem doWorkBody_exact {τ : Type} (c : Collab τ) (mem : τ → Sha → Bool)
    (G : Sha → List Sha) (V : List Sha) (hf : TrackerFaithful c mem) (hreal : Realizes c G V)
    (p : Push τ) (hash : String) (v : Sha) (hd : DecodeString hash = (v, none)) (hv : v ∈ V) :
    ∃ p', doWorkBody c p hash = Step.next p' ∧
      ((mem p.tracker v = true ∧ p'.todo = p.todo ∧ p'.tracker = p.tracker ∧
          p'.trace = p.trace) ∨
       (mem p.tracker v = false ∧
        (∀ x, mem p'.tracker x = (decide (x = v) || mem p.tracker x)) ∧
        (∃ raw, p'.trace = p.trace ++ [Event.fetch v] ++ [Event.dagPut v raw]) ∧
        p'.todo = p.todo ++ ((G v).filter (fun w => !mem p'.tracker w)).map EncodeToString)) := by
  have hhas := hf.has p.tracker v
  cases hm : mem p.tracker v with
  | true =>
    rw [hm] at hhas
    refine ⟨{ p with todoc := (p.todoc + 2 ^ 64 - 1) % 2 ^ 64 }, ?_, Or.inl ⟨rfl, rfl, rfl, rfl⟩⟩
    simp only [doWorkBody, hd, hhas]
  | false =>
    rw [hm] at hhas
    obtain ⟨cid, obj, payload, links, hcid, hobj, hrd, hput, hparse, hlinks⟩ :=
      hreal.item hash v hd hv
    obtain ⟨t', hadd, ht'⟩ := hf.add p.tracker v
    have hkey : NewHash hash = v := NewHash_of_decode hash v hd (hreal.len v hv)
    have hex := linksLoop_exact c mem hf links (G v) hlinks
      { p with done := (p.done + 1) % 2 ^ 64, tracker := t',
               trace := p.trace ++ [Event.fetch v] ++
                 [Event.dagPut v (header obj.typ obj.size ++ payload)] }
    have hfr := linksLoop_frame c links
      { p with done := (p.done + 1) % 2 ^ 64, tracker := t',
               trace := p.trace ++ [Event.fetch v] ++
                 [Event.dagPut v (header obj.typ obj.size ++ payload)] }
    refine ⟨(linksLoop c links
      { p with done := (p.done + 1) % 2 ^ 64, tracker := t',
               trace := p.trace ++ [Event.fetch v] ++
                 [Event.dagPut v (header obj.typ obj.size ++ payload)] }).1, ?_, Or.inr ⟨rfl, ?_, ?_, ?_⟩⟩
    · simp only [doWorkBody, hd, hhas, hcid, hkey, hobj, hrd, hput, hadd, ne_eq,
        not_true_eq_false, if_false, processLinks, hparse]
    · intro x
      rw [hfr.1]
      exact ht' x
    · exact ⟨_, hfr.2.1⟩
    · rw [hex.2, hfr.1]

theorem fetches_snoc_fetch_put (t : List Event) (k : List Byte) (s : Sha) (raw : List Byte) :
    fetches (t ++ [Event.fetch k] ++ [Event.dagPut s raw]) = fetches t ++ [k] := by
  simp [fetches_append, fetches]

/-- One iteration of the loop with working collaborators keeps the state of
the push and moves to the next entry. -/
theorem pushInv_step {τ : Type} (c : Collab τ) (mem : τ → Sha → Bool)
    (G : Sha → List Sha) (V : List Sha) (hf : TrackerFaithful c mem) (hreal : Realizes c G V)
    (t0 : τ) (r : Sha) (i : Nat) (p : Push τ) (hash : String)
    (inv : PushInv mem G V t0 r i p) (hget : p.todo[i]? = some hash) :
    ∃ p', doWorkBody c p hash = Step.next p' ∧ PushInv mem G V t0 r (i + 1) p' := by
  have hdrop := drop_of_getElem? hget
  have hilt : i < p.todo.length := (List.getElem?_eq_some.1 hget).1
  have hhead : hash ∈ p.todo.drop i := by rw [hdrop]; simp
  have htail : ∀ h ∈ p.todo.drop (i + 1), h ∈ p.todo.drop i := by
    intro h hh; rw [hdrop]; simp [hh]
  obtain ⟨v, hv, hd⟩ := inv.decodes hash hhead
  obtain ⟨p', hb, hcase⟩ := doWorkBody_exact c mem G V hf hreal p hash v hd hv
  refine ⟨p', hb, ?_⟩
  rcases hcase with ⟨hm, htodo, htr, htrace⟩ | ⟨hm, hmem', ⟨raw, htrace⟩, htodo⟩
  · constructor
    · intro h hh
      rw [htodo] at hh
      exact inv.decodes h (htail h hh)
    · rw [htr, htrace]; exact inv.tracked
    · rw [htrace]; exact inv.nodup
    · rw [htrace]; exact inv.fetched
    · intro x hx
      rw [htrace, htodo, htr]
      rcases inv.pending x hx with h1 | ⟨h, hh, q, hq, hreach⟩
      · exact Or.inl h1
      · right
        rw [hdrop] at hh
        rcases List.mem_cons.1 hh with heq | hin
        · subst heq
          rw [hd] at hq
          simp only [Prod.mk.injEq, and_true] at hq
          subst hq
          have := hreach.source_avoid
          rw [hm] at this
          simp at this
        · exact ⟨h, hin, q, hq, hreach⟩
    · rw [htrace]; exact inv.sound
    · intro h hh
      rw [htodo] at hh
      exact inv.queued h (htail h hh)
  · have htv := inv.tracked v
    rw [hm] at htv
    have hvT0 : mem t0 v = false := by
      cases h0 : mem t0 v with
      | false => rfl
      | true => rw [h0] at htv; simp at htv
    have hvP : v ∉ puts p.trace := by
      intro hin
      rw [hvT0] at htv
      simp [hin] at htv
    have hreachv : ReachAvoid G (mem t0) r v := inv.queued hash hhead v hd hvT0
    have hputs : puts p'.trace = puts p.trace ++ [v] := by
      rw [htrace, puts_snoc_fetch_put]
    have hdrop' : p'.todo.drop (i + 1) = p.todo.drop (i + 1) ++
        ((G v).filter (fun w => !mem p'.tracker w)).map EncodeToString := by
      rw [htodo, List.drop_append_of_le_length (by omega)]
    constructor
    · intro h hh
      rw [hdrop'] at hh
      rcases List.mem_append.1 hh with hin | hin
      · exact inv.decodes h (htail h hin)
      · obtain ⟨w, hw, rfl⟩ := List.mem_map.1 hin
        exact ⟨w, hreal.closed v hv w (List.mem_filter.1 hw).1, DecodeString_EncodeToString w⟩
    · intro x
      rw [hmem' x, inv.tracked x, hputs]
      by_cases hxv : x = v <;> by_cases hxP : x ∈ puts p.trace <;>
        cases mem t0 x <;> simp [hxv, hxP]
    · rw [hputs]
      exact List.Nodup.append inv.nodup (List.nodup_singleton v) (by simpa using hvP)
    · rw [htrace, fetches_snoc_fetch_put, puts_snoc_fetch_put, inv.fetched]
    · intro x hx
      rcases inv.pending x hx with h1 | ⟨h, hh, q, hq, hreach⟩
      · left; rw [hputs]; simp [h1]
      · rcases ReachAvoid.split v hmem' hreach with h1 | h2 | ⟨w, hw, h3⟩
        · left; rw [hputs]; simp [h1]
        · right
          rw [hdrop] at hh
          rcases List.mem_cons.1 hh with heq | hin
          · subst heq
            rw [hd] at hq
            simp only [Prod.mk.injEq, and_true] at hq
            subst hq
            have := h2.source_avoid
            rw [hmem'] at this
            simp at this
          · exact ⟨h, by rw [hdrop']; simp [hin], q, hq, h2⟩
        · right
          refine ⟨EncodeToString w, ?_, w, DecodeString_EncodeToString w, h3⟩
          rw [hdrop']
          apply List.mem_append_right
          apply List.mem_map_of_mem
          exact List.mem_filter.2 ⟨hw, by simp [h3.source_avoid]⟩
    · intro x hx
      rw [hputs] at hx
      rcases List.mem_append.1 hx with hin | hin
      · exact inv.sound x hin
      · simp at hin; subst hin; exact hreachv
    · intro h hh q hq hqT
      rw [hdrop'] at hh
      rcases List.mem_append.1 hh with hin | hin
      · exact inv.queued h (htail h hin) q hq hqT
      · obtain ⟨w, hw, rfl⟩ := List.mem_map.1 hin
        rw [DecodeString_EncodeToString] at hq
        simp only [Prod.mk.injEq, and_true] at hq
        subst hq
        exact hreachv.snoc (List.mem_filter.1 hw).1 hqT

/-- With working collaborators the loop, when it finishes, returns no error
and has done the push. -/
theorem doWorkLoop_correct {τ : Type} (c : Collab τ) (mem : τ → Sha → Bool)
    (G : Sha → List Sha) (V : List Sha) (hf : TrackerFaithful c mem) (hreal : Realizes c G V)
    (t0 : τ) (r : Sha) :
    ∀ (fuel i : Nat) (p : Push τ) (res : Push τ × Option String),
      PushInv mem G V t0 r i p → doWorkLoop c fuel i p = some res →
      res.2 = none ∧ PushDone mem G t0 r res.1 := by
  intro fuel
  induction fuel with
  | zero => intro i p res _ h; simp [doWorkLoop] at h
  | succ fuel ih =>
    intro i p res inv h
    unfold doWorkLoop at h
    cases hget : p.todo[i]? with
    | none =>
      rw [hget] at h
      simp only [Option.some.injEq] at h
      subst h
      have hnil : p.todo.drop i = [] :=
        List.drop_eq_nil_of_le (List.getElem?_eq_none_iff.1 hget)
      refine ⟨rfl, ?_⟩
      constructor
      · intro x hx
        rcases inv.pending x hx with h1 | ⟨h, hh, _⟩
        · exact h1
        · rw [hnil] at hh; simp at hh
      · exact inv.sound
      · exact inv.nodup
      · exact inv.fetched
      · exact inv.tracked
    | some hash =>
      rw [hget] at h
      obtain ⟨p', hb, inv'⟩ := pushInv_step c mem G V hf hreal t0 r i p hash inv hget
      simp only [hb] at h
      exact ih (i + 1) p' res inv' h

/-- A fresh push of a root naming a vertex, with working collaborators and a
faithful Tracker: the loop finishes within the stated fuel, returns no error
and has done the push. -/
theorem push_fresh_correct {τ : Type} (c : Collab τ) (mem : τ → Sha → Bool)
    (G : Sha → List Sha) (V : List Sha) (hf : TrackerFaithful c mem) (hreal : Realizes c G V)
    (root : String) (r : Sha) (hroot : DecodeString root = (r, none)) (hr : r ∈ V) (t0 : τ)
    (fuel : Nat) (hfuel : weight V (fun v => (G v).length) [] + 2 ≤ fuel) :
    ∃ p', PushHash c fuel (NewPush t0) root = some (p', none) ∧ PushDone mem G t0 r p' := by
  have hexp : ∀ (p p' : Push τ) (hash : String) (s : Sha), DecodeString hash = (s, none) →
      s ∈ V → c.HasEntry p.tracker s = .ok false → doWorkBody c p hash = Step.next p' →
      ∃ new, p'.todo = p.todo ++ new ∧ new.length ≤ (G s).length ∧
        ∀ h ∈ new, ∀ s', DecodeString h = (s', none) → s' ∈ V := by
    intro p p' hash s hd hs hh hb
    obtain ⟨p'', hb', hcase⟩ := doWorkBody_exact c mem G V hf hreal p hash s hd hs
    rw [hb] at hb'
    simp only [Step.next.injEq] at hb'
    subst hb'
    rcases hcase with ⟨hm, _⟩ | ⟨_, _, _, htodo⟩
    · have := hf.has p.tracker s
      rw [hh, hm] at this
      simp at this
    · refine ⟨_, htodo, ?_, ?_⟩
      · rw [List.length_map]
        exact List.length_filter_le _ _
      · intro h hin s' hs'
        obtain ⟨w, hw, rfl⟩ := List.mem_map.1 hin
        rw [DecodeString_EncodeToString] at hs'
        simp only [Prod.mk.injEq, and_true] at hs'
        subst hs'
        exact hreal.closed s hs w (List.mem_filter.1 hw).1
  have hinv : PushInv mem G V t0 r 0 { NewPush t0 with todo := root :: (NewPush t0).todo } := by
    constructor
    · intro h hh
      simp [NewPush] at hh
      subst hh
      exact ⟨r, hr, hroot⟩
    · intro x; simp [NewPush, puts]
    · simp [NewPush, puts]
    · simp [NewPush, puts, fetches]
    · intro x hx
      right
      exact ⟨root, by simp [NewPush], r, hroot, hx⟩
    · intro x hx; simp [NewPush, puts] at hx
    · intro h hh q hq hqT
      simp [NewPush] at hh
      subst hh
      rw [hroot] at hq
      simp only [Prod.mk.injEq, and_true] at hq
      subst hq
      exact ReachAvoid.refl _ hqT
  obtain ⟨res, hres, _, _⟩ := doWorkLoop_terminates c mem hf.remembers V
    (fun v => (G v).length) hexp fuel 0 { NewPush t0 with todo := root :: (NewPush t0).todo }
    (by
      intro h hh s hs
      simp [NewPush] at hh
      subst hh
      rw [hroot] at hs
      simp only [Prod.mk.injEq, and_true] at hs
      subst hs
      exact hr)
    (by intro x hx; simp [NewPush, puts] at hx)
    (by simp [NewPush, puts])
    (by simp [NewPush, puts]; omega)
  obtain ⟨hnone, hdone⟩ := doWorkLoop_correct c mem G V hf hreal t0 r fuel 0 _ res hinv hres
  refine ⟨res.1, ?_, hdone⟩
  unfold PushHash doWork
  rw [hres]
  cases res with
  | mk a b => simp only at hnone; subst hnone; rfl

theorem filter_eq_length_of_not_mem (l : List Sha) (x : Sha) (h : x ∉ l) :
    (l.filter (fun y => decide (y = x))).length = 0 := by
  induction l with
  | nil => rfl
  | cons a rest ih =>
    have hax : ¬ a = x := fun e => h (by simp [e])
    have hrest : x ∉ rest := fun e => h (by simp [e])
    rw [List.filter_cons_of_neg (by simpa using hax)]
    exact ih hrest

/-- An identity in a duplicate-free list of submissions was submitted once. -/
theorem timesPut_eq_one (x : Sha) (trace : List Event) (hn : (puts trace).Nodup)
    (hx : x ∈ puts trace) : timesPut x trace = 1 := by
  unfold timesPut
  generalize puts trace = l at hn hx
  induction l with
  | nil => simp at hx
  | cons a rest ih =>
    obtain ⟨ha, hrest⟩ := List.nodup_cons.1 hn
    by_cases hax : a = x
    · subst hax
      rw [List.filter_cons_of_pos (by simp), List.length_cons,
        filter_eq_length_of_not_mem rest a ha]
    · rw [List.filter_cons_of_neg (by simpa using hax)]
      rcases List.mem_cons.1 hx with h | h
      · exact absurd h.symm hax
      · exact ih hrest h

/-! ### What the Tracker records -/

/-- Under a Tracker that behaves as a set, whatever the other collaborators
do, every identity the loop adds to the Tracker has a recorded `DagPut`. -/
theorem doWorkLoop_recorded {τ : Type} (c : Collab τ) (mem : τ → Sha → Bool)
    (hs : TrackerSound c mem) (t0 : τ) :
    ∀ (fuel i : Nat) (p : Push τ) (res : Push τ × Option String),
      (∀ x, mem p.tracker x = true → mem t0 x = true ∨ x ∈ puts p.trace) →
      doWorkLoop c fuel i p = some res →
      ∀ x, mem res.1.tracker x = true → mem t0 x = true ∨ x ∈ puts res.1.trace := by
  intro fuel
  induction fuel with
  | zero => intro i p res _ h; simp [doWorkLoop] at h
  | succ fuel ih =>
    intro i p res hrec h
    unfold doWorkLoop at h
    cases hget : p.todo[i]? with
    | none =>
      rw [hget] at h
      simp only [Option.some.injEq] at h
      subst h
      exact hrec
    | some hash =>
      rw [hget] at h
      simp only at h
      cases hb : doWorkBody c p hash with
      | abort p' err =>
        rw [hb] at h
        simp only [Option.some.injEq] at h
        subst h
        intro x hx
        simp only at hx ⊢
        rcases (doWorkBody_abort_cases c p p' hash err hb).2 with
          ⟨ht, htr⟩ | ⟨sha, _, _, hcase⟩
        · rw [ht]; rw [htr] at hx; exact hrec x hx
        · rcases hcase with ⟨ht, htr⟩ | ⟨raw, ht, htr⟩
          · rw [ht, puts_snoc_fetch]; rw [htr] at hx; exact hrec x hx
          · rw [ht, puts_snoc_fetch_put]
            rcases htr with htr | hadd
            · rw [htr] at hx
              rcases hrec x hx with h1 | h1
              · exact Or.inl h1
              · right; simp [h1]
            · rw [hs.add_ok _ _ _ hadd x] at hx
              by_cases hxs : x = sha
              · right; simp [hxs]
              · simp only [hxs, decide_False, Bool.false_or] at hx
                rcases hrec x hx with h1 | h1
                · exact Or.inl h1
                · right; simp [h1]
      | next p' =>
        rw [hb] at h
        simp only at h
        refine ih (i + 1) p' res ?_ h
        obtain ⟨sha, _, hcase⟩ := doWorkBody_next_summary c p p' hash hb
        rcases hcase with ⟨_, _, htr, ht⟩ | ⟨_, raw, hadd, ht, _⟩
        · rw [htr, ht]; exact hrec
        · intro x hx
          rw [ht, puts_snoc_fetch_put]
          rw [hs.add_ok _ _ _ hadd x] at hx
          by_cases hxs : x = sha
          · right; simp [hxs]
          · simp only [hxs, decide_False, Bool.false_or] at hx
            rcases hrec x hx with h1 | h1
            · exact Or.inl h1
            · right; simp [h1]

/-! ### The example world -/

theorem toy_faithful : TrackerFaithful toyCollab toyMem where
  has := fun _ _ => rfl
  add := fun t s => ⟨s :: t, rfl, fun x => by simp [toyMem]⟩

theorem toy_faithful_parseFails : TrackerFaithful toyParseFails toyMem where
  has := fun _ _ => rfl
  add := fun t s => ⟨s :: t, rfl, fun x => by simp [toyMem]⟩

theorem toy_sound_putFails : TrackerSound toyPutFails toyMem where
  has_ok := by
    intro t s b h
    have h' : Except.ok (toyMem t s) = (Except.ok b : Except String Bool) := h
    simp only [Except.ok.injEq] at h'
    exact h'.symm
  add_ok := by
    intro t s t' h x
    have h' : Except.ok (s :: t) = (Except.ok t' : Except String (List Sha)) := h
    simp only [Except.ok.injEq] at h'
    subst h'
    simp [toyMem]

theorem toy_store_finite (key : List Byte) (obj : EncodedObject)
    (h : toyCollab.EncodedObject key = .ok obj) : key ∈ toyVertices := by
  have h' : toyObject key = .ok obj := h
  unfold toyObject at h'
  unfold toyVertices
  split_ifs at h' with h1 h2 h3 h4
  · simp [h1]
  · simp [h2]
  · simp [h3]
  · simp [h4]

theorem toy_realizes : Realizes toyCollab toyGraph toyVertices where
  len := by
    intro v hv
    simp only [toyVertices, List.mem_cons, List.mem_singleton, List.not_mem_nil, or_false] at hv
    rcases hv with h | h | h | h <;> subst h <;> rfl
  closed := by
    intro v hv w hw
    simp only [toyVertices, List.mem_cons, List.mem_singleton, List.not_mem_nil, or_false] at hv
    rcases hv with h | h | h | h <;> subst h <;> revert w <;> decide
  item := by
    intro hash v hd hv
    have hcid : toyCollab.CidFromHex hash = .ok ("z" ++ EncodeToString v) := by
      simp only [toyCollab, hd]
    simp only [toyVertices, List.mem_cons, List.mem_singleton, List.not_mem_nil, or_false] at hv
    rcases hv with h | h | h | h <;> subst h
    · exact ⟨_, ⟨ObjectType.CommitObject, 3, .ok (.ok [1, 2, 3])⟩, [1, 2, 3],
        [[17, 20] ++ toySha 2, [17, 20] ++ toySha 3], hcid, rfl, rfl, rfl, rfl,
        List.Forall₂.cons rfl (List.Forall₂.cons rfl List.Forall₂.nil)⟩
    · exact ⟨_, ⟨ObjectType.TreeObject, 2, .ok (.ok [2, 4])⟩, [2, 4],
        [[17, 20] ++ toySha 4], hcid, rfl, rfl, rfl, rfl,
        List.Forall₂.cons rfl List.Forall₂.nil⟩
    · exact ⟨_, ⟨ObjectType.TreeObject, 2, .ok (.ok [3, 4])⟩, [3, 4],
        [[17, 20] ++ toySha 4], hcid, rfl, rfl, rfl, rfl,
        List.Forall₂.cons rfl List.Forall₂.nil⟩
    · exact ⟨_, ⟨ObjectType.BlobObject, 1, .ok (.ok [4])⟩, [4],
        [], hcid, rfl, rfl, rfl, rfl, List.Forall₂.nil⟩

theorem toy_root_decodes (b : Byte) : DecodeString (toyHash b) = (toySha b, none) :=
  DecodeString_EncodeToString (toySha b)

theorem toy_reach_4 : ReachAvoid toyGraph (toyMem []) (toySha 1) (toySha 4) :=
  ReachAvoid.step _ (toySha 2) _ rfl (by decide)
    (ReachAvoid.step _ (toySha 4) _ rfl (by decide) (ReachAvoid.refl _ rfl))

/-! ### Termination over a finite object store -/

theorem NewHash_eq_keyOf (hash : String) (s : Sha) (hd : DecodeString hash = (s, none)) :
    NewHash hash = keyOf s := by
  unfold NewHash keyOf
  rw [hd]

/-- An expansion appends at most as many entries as the stored object has
links, and each names a link digest of a stored object. -/
theorem doWorkBody_expand_universe {τ : Type} (c : Collab τ) (store : List (List Byte))
    (hstore : ∀ key obj, c.EncodedObject key = .ok obj → key ∈ store) (root : String)
    (p p' : Push τ) (hash : String) (s : Sha) (hd : DecodeString hash = (s, none))
    (hb : doWorkBody c p hash = Step.next p') (hh : c.HasEntry p.tracker s = .ok false) :
    ∃ new, p'.todo = p.todo ++ new ∧ new.length ≤ (linksOf c (keyOf s)).length ∧
      ∀ h ∈ new, ∀ s', DecodeString h = (s', none) → s' ∈ worklistUniverse c store root := by
  obtain ⟨sha, hd', hcase⟩ := doWorkBody_next_cases c p p' hash hb
  rw [hd] at hd'
  simp only [Prod.mk.injEq, and_true] at hd'
  subst hd'
  rcases hcase with ⟨hh', _⟩ | ⟨_, cid, obj, payload, t', _, hobj, hrd, _, _, hp'⟩
  · rw [hh] at hh'; simp at hh'
  · rw [NewHash_eq_keyOf hash s hd] at hobj hp'
    obtain ⟨new, hnew, hcase⟩ := processLinks_todo c
      { p with done := (p.done + 1) % 2 ^ 64, tracker := t',
               trace := p.trace ++ [Event.fetch (keyOf s)] ++
                 [Event.dagPut s (header obj.typ obj.size ++ payload)] }
      (header obj.typ obj.size ++ payload)
    refine ⟨new, by rw [hp', hnew], ?_⟩
    rcases hcase with hnil | ⟨links, hparse, hlen, hmem⟩
    · subst hnil
      simp
    · have hlinks : linksOf c (keyOf s) = links := by
        simp only [linksOf, hobj, hrd, hparse]
      refine ⟨by rw [hlinks]; exact hlen, ?_⟩
      intro h hin s' hs'
      obtain ⟨l, hl, d, hdl, rfl⟩ := hmem h hin
      rw [DecodeString_EncodeToString] at hs'
      simp only [Prod.mk.injEq, and_true] at hs'
      subst hs'
      unfold worklistUniverse
      apply List.mem_cons_of_mem
      rw [List.mem_flatMap]
      refine ⟨keyOf s, hstore _ _ hobj, ?_⟩
      unfold digestsOf
      rw [List.mem_filterMap, hlinks]
      exact ⟨l, hl, by rw [hdl]⟩

/-! ## Manifest builder: results -/

/-- The example of the specification: `"a/b/c" → cid1` then `"a/b/d" → cid2`
inserted into a tree holding `"x/y" → cid0`. -/
theorem manifest_example :
    ∃ m ab, buildManifest [("x/y", "cid0"), ("a/b/c", "cid1"), ("a/b/d", "cid2")] = some m ∧
      nodeAt m ["a", "b"] = some ab ∧ hasChild ab "c" = true ∧ hasChild ab "d" = true ∧
      resolveRef m "a/b/c" = some "cid1" ∧ resolveRef m "a/b/d" = some "cid2" ∧
      resolveRef m "x/y" = some "cid0" :=
  ⟨_, _, rfl, rfl, by decide, by decide, by decide, by decide, by decide⟩

/-- C7: on every manifest tree built from the empty tree by insertions,
`insertRefIntoMap(m, r, c)` returns a tree in which resolving `r` yields `c`
and resolving any other reference name `r'` yields what it yielded in `m`. -/
theorem insertRefIntoMap_point_update (ops : List (String × String)) (r c r' : String) :
    ∃ m m', buildManifest ops = some m ∧ insertRefIntoMap m r c = some m' ∧
      resolveRef m' r' = if r' = r then some c else resolveRef m r' := by
  obtain ⟨m, hm, hw⟩ := buildManifest_wellShaped ops
  obtain ⟨m', hm', _⟩ := insertLoop_wellShaped (Split r) m c (Split_segsOK r) hw
  refine ⟨m, m', hm, hm', ?_⟩
  have h := resolveSegs_insertLoop (Split r) m m' c (Split r') (Split_segsOK r)
    (Split_segsOK r') hw hm'
  simp only [resolveRef]
  simp only [resolveSegs] at h
  rw [h]
  by_cases hr : r' = r
  · simp [hr]
  · have : ¬ Split r' = Split r := fun hs => hr (Split_injective r' r hs)
    simp [hr, this]

/-- C8 as stated fails: after inserting `"refs/heads/a"` and then
`"refs/heads/a/b"` the node `refs/heads/a` below the root carries both the
`"/"` link marker and the path-segment child `b`. -/
theorem marker_with_children_counterexample :
    ¬ (∀ (ops : List (String × String)) (m : GoMap) (p : List String) (n : GoMap),
        buildManifest ops = some m → p ≠ [] → nodeAt m p = some n →
        ¬ (hasMarker n = true ∧ ∃ k, hasChild n k = true)) := by
  intro h
  exact h [("refs/heads/a", "c1"), ("refs/heads/a/b", "c2")] _ ["refs", "heads", "a"] _
    rfl (by decide) rfl ⟨by decide, "b", by decide⟩

/-- C8 (amended): when no inserted reference name is segment-wise a proper
prefix of another inserted name, no node of the built tree carries the `"/"`
link marker together with a path-segment child. -/
theorem marker_excludes_children (ops : List (String × String)) (m : GoMap)
    (hm : buildManifest ops = some m) (hfree : PrefixFree ops)
    (p : List String) (n : GoMap) (hn : nodeAt m p = some n) :
    ¬ (hasMarker n = true ∧ ∃ k, hasChild n k = true) := by
  rintro ⟨hmark, k, hch⟩
  obtain ⟨a, ha, hpa⟩ := buildManifest_marker ops m p n hm hn hmark
  obtain ⟨b, hb, hpb⟩ := buildManifest_child ops m p n k hm hn hch
  apply hfree a ha b hb
  rw [← hpa]
  refine ⟨(List.prefix_append p [k]).trans hpb, ?_⟩
  intro heq
  have hlen := hpb.length_le
  rw [← heq] at hlen
  simp at hlen

/-- An instance: after inserting `refs/heads/a` and `refs/heads/b` the node
`refs/heads/a` holds the marker and no child. -/
theorem marker_excludes_children_witness :
    PrefixFree [("refs/heads/a", "c1"), ("refs/heads/b", "c2")] ∧
      ¬ (hasMarker [("/", Val.str "c1")] = true ∧
          ∃ k, hasChild [("/", Val.str "c1")] k = true) :=
  ⟨by decide,
    marker_excludes_children [("refs/heads/a", "c1"), ("refs/heads/b", "c2")] _ rfl
      (by decide) ["refs", "heads", "a"] _ rfl⟩

/-- C10: every tree built from the empty map by `insertRefIntoMap` calls with
arbitrary names exists (no call panicked), has only nested maps under keys
other than `"/"`, and a further `insertRefIntoMap` with any name and CID
returns normally; no path segment of a split name equals `"/"`. -/
theorem insertRefIntoMap_no_panic (ops : List (String × String)) :
    ∃ m, buildManifest ops = some m ∧ WellShaped m ∧
      ∀ r c : String, (∀ seg ∈ Split r, seg ≠ "/") ∧
        ∃ m', insertRefIntoMap m r c = some m' ∧ WellShaped m' := by
  obtain ⟨m, hm, hw⟩ := buildManifest_wellShaped ops
  refine ⟨m, hm, hw, fun r c => ⟨Split_segsOK r, ?_⟩⟩
  exact insertLoop_wellShaped (Split r) m c (Split_segsOK r) hw

/-! ## Reference lister: results -/

/-- C5 as stated fails: with `forPush = true` the supplied hash is never
decoded, so a malformed hash (`"zz"`) with three process arguments still
yields a listing. -/
theorem List_bad_hash_counterexample :
    ¬ (∀ (h : IpldHandler) (remote : Remote) (forPush : Bool) (osArgs : List String),
        3 ≤ osArgs.length → decodesTo20 h.remoteHash = false →
        ∃ err, h.List remote forPush osArgs = .error err) := by
  intro hall
  obtain ⟨err, herr⟩ := hall ⟨"zz"⟩ emptyRepoSymbolic true ["git-remote-ipld", "origin", "ipld::zz"]
    (by decide) (by decide)
  have hval : IpldHandler.List ⟨"zz"⟩ emptyRepoSymbolic true
      ["git-remote-ipld", "origin", "ipld::zz"] = .ok ["@refs/heads/master HEAD"] := rfl
  rw [hval] at herr
  cases herr

/-- With `forPush = false` too a malformed hash passes when no branch is the
target of a symbolic HEAD: one branch, detached HEAD. -/
theorem List_bad_hash_detached_head :
    IpldHandler.List ⟨"zz"⟩
      { emptyRepoDetached with
        Branches := .ok [{ t := ReferenceType.HashReference, n := "refs/heads/master",
                           h := List.replicate 20 18, target := "" }] }
      false ["git-remote-ipld", "origin", "ipld::zz"] =
    .ok ["0000000000000000000000000000000000000000 refs/heads/master",
         "abababababababababababababababababababab HEAD"] := rfl

/-- C5 (amended): with `forPush = false`, at least 3 process arguments and a
supplied hash that does not decode to exactly 20 bytes, `List` fails with an
error (and so returns no lines) whenever the repository has zero branches or
HEAD is a symbolic reference whose target is one of the enumerated branches. -/
theorem List_rejects_bad_hash (h : IpldHandler) (remote : Remote) (osArgs : List String)
    (hargs : 3 ≤ osArgs.length) (hbad : decodesTo20 h.remoteHash = false)
    (hcase : remote.Branches = .ok [] ∨
      ∃ headRef refs, remote.Reference HEAD false = .ok headRef ∧ remote.Branches = .ok refs ∧
        headRef.t = ReferenceType.SymbolicReference ∧ ∃ ref ∈ refs, ref.n = headRef.target) :
    ∃ err, h.List remote false osArgs = .error err := by
  unfold decodesTo20 at hbad
  rcases hcase with hnil | ⟨headRef, refs, hhead, hbr, hsym, hex⟩
  · unfold IpldHandler.List
    cases hhead : remote.Reference HEAD false with
    | error e => exact ⟨e, rfl⟩
    | ok headRef =>
      simp only [hnil, forEachBranch_nil]
      have hcond : (True ∧ (!false) = true ∧ osArgs.length ≥ 3) := ⟨trivial, rfl, hargs⟩
      rw [if_pos hcond]
      cases hd : DecodeString h.remoteHash with
      | mk sha err =>
        rw [hd] at hbad
        cases err with
        | some e => exact ⟨e, rfl⟩
        | none =>
          simp only [beq_eq_false_iff_ne, ne_eq] at hbad
          exact ⟨"invalid hash length", by simp [hbad]⟩
  · obtain ⟨e, he⟩ := forEachBranch_bad_hash h remote osArgs headRef hsym hargs
      (by unfold decodesTo20; exact hbad) refs ([], 0) hex
    exact ⟨e, by simp only [IpldHandler.List, hhead, hbr, he]⟩

/-- An instance: one branch `refs/heads/master`, HEAD pointing at it, and the
8-character hash `deadbeef`. -/
theorem List_rejects_bad_hash_witness :
    3 ≤ ["git-remote-ipld", "origin", "ipld::zz"].length ∧
      decodesTo20 "deadbeef" = false ∧
      ∃ err, IpldHandler.List ⟨"deadbeef"⟩ masterRepo false
        ["git-remote-ipld", "origin", "ipld::zz"] = .error err :=
  ⟨by decide, by decide,
    List_rejects_bad_hash ⟨"deadbeef"⟩ masterRepo ["git-remote-ipld", "origin", "ipld::zz"]
      (by decide) (by decide)
      (Or.inr ⟨_, _, rfl, rfl, rfl, _, List.mem_singleton.2 rfl, rfl⟩)⟩

/-- C6: with zero local branches, `forPush = false`, at least 3 process
arguments and a supplied hash `h` that decodes to exactly 20 bytes, `List`
succeeds with exactly two lines: `h refs/heads/master` with `h` as supplied,
then `<hash> HEAD` for a direct HEAD or `@<target> HEAD` for a symbolic one. -/
theorem List_clone_bootstrap (h : IpldHandler) (remote : Remote) (osArgs : List String)
    (headRef : Reference) (hhead : remote.Reference HEAD false = .ok headRef)
    (hname : headRef.n = "HEAD") (hbr : remote.Branches = .ok [])
    (hargs : 3 ≤ osArgs.length) (hdec : decodesTo20 h.remoteHash = true) :
    (headRef.t = ReferenceType.HashReference →
        h.List remote false osArgs =
          .ok [h.remoteHash ++ " refs/heads/master", EncodeToString headRef.h ++ " HEAD"]) ∧
      (headRef.t = ReferenceType.SymbolicReference →
        h.List remote false osArgs =
          .ok [h.remoteHash ++ " refs/heads/master", "@" ++ headRef.target ++ " HEAD"]) := by
  unfold decodesTo20 at hdec
  have hcond : (0 = 0 ∧ (!false) = true ∧ osArgs.length ≥ 3) := ⟨rfl, rfl, hargs⟩
  cases hd : DecodeString h.remoteHash with
  | mk sha err =>
    rw [hd] at hdec
    cases err with
    | some e => simp at hdec
    | none =>
      simp only [beq_iff_eq] at hdec
      constructor
      · intro ht
        simp only [IpldHandler.List, hhead, hbr, forEachBranch_nil, if_pos hcond, hd, hdec, ht,
          hname]
        simp only [hargs, if_true, List.nil_append, List.cons_append, String.append_assoc]
        rfl
      · intro ht
        simp only [IpldHandler.List, hhead, hbr, forEachBranch_nil, if_pos hcond, hd, hdec, ht,
          hname]
        simp only [hargs, if_true, List.nil_append, List.cons_append, String.append_assoc]
        rfl

/-- An instance: the empty repository with a detached HEAD and the hash
`deadbeef` repeated five times. -/
theorem List_clone_bootstrap_witness :
    (ReferenceType.HashReference = ReferenceType.HashReference →
        IpldHandler.List ⟨"deadbeefdeadbeefdeadbeefdeadbeefdeadbeef"⟩ emptyRepoDetached false
            ["git-remote-ipld", "origin", "ipld::deadbeefdeadbeefdeadbeefdeadbeefdeadbeef"] =
          .ok ["deadbeefdeadbeefdeadbeefdeadbeefdeadbeef" ++ " refs/heads/master",
               EncodeToString (List.replicate 20 171) ++ " HEAD"]) ∧
      (ReferenceType.HashReference = ReferenceType.SymbolicReference →
        IpldHandler.List ⟨"deadbeefdeadbeefdeadbeefdeadbeefdeadbeef"⟩ emptyRepoDetached false
            ["git-remote-ipld", "origin", "ipld::deadbeefdeadbeefdeadbeefdeadbeefdeadbeef"] =
          .ok ["deadbeefdeadbeefdeadbeefdeadbeefdeadbeef" ++ " refs/heads/master",
               "@" ++ "" ++ " HEAD"]) :=
  List_clone_bootstrap ⟨"deadbeefdeadbeefdeadbeefdeadbeefdeadbeef"⟩ emptyRepoDetached
    ["git-remote-ipld", "origin", "ipld::deadbeefdeadbeefdeadbeefdeadbeefdeadbeef"]
    _ rfl rfl rfl (by decide) (by decide)

/-- The two listings of the specification's example, for a direct and for a
symbolic HEAD. -/
theorem List_deadbeef_example :
    IpldHandler.List ⟨"deadbeefdeadbeefdeadbeefdeadbeefdeadbeef"⟩ emptyRepoDetached false
        ["git-remote-ipld", "origin", "ipld::deadbeefdeadbeefdeadbeefdeadbeefdeadbeef"] =
      .ok ["deadbeefdeadbeefdeadbeefdeadbeefdeadbeef refs/heads/master",
           "abababababababababababababababababababab HEAD"] ∧
    IpldHandler.List ⟨"deadbeefdeadbeefdeadbeefdeadbeefdeadbeef"⟩ emptyRepoSymbolic false
        ["git-remote-ipld", "origin", "ipld::deadbeefdeadbeefdeadbeefdeadbeefdeadbeef"] =
      .ok ["deadbeefdeadbeefdeadbeefdeadbeefdeadbeef refs/heads/master",
           "@refs/heads/master HEAD"] :=
  ⟨rfl, rfl⟩

/-! ## Push engine: results -/

/-- The diamond of the example pushed into an empty Tracker: object 4 is
queued twice (once per parent) and submitted once. -/
theorem push_diamond_example :
    ∃ p, PushHash toyCollab 6 (NewPush []) (toyHash 1) = some (p, none) ∧
      p.todo = [toyHash 1, toyHash 2, toyHash 3, toyHash 4, toyHash 4] ∧
      puts p.trace = [toySha 1, toySha 2, toySha 3, toySha 4] ∧
      fetches p.trace = [toySha 1, toySha 2, toySha 3, toySha 4] :=
  ⟨_, rfl, by decide, by decide, by decide⟩

/-- C1: with a faithful Tracker and working collaborators that return the
expected CID, `PushHash(root)` on a fresh `Push` finishes without error,
submits each identity reachable from the root along identities outside the
initial Tracker exactly once, and neither fetches nor submits any identity of
the initial Tracker. -/
theorem PushHash_each_reachable_once {τ : Type} (c : Collab τ) (mem : τ → Sha → Bool)
    (G : Sha → List Sha) (V : List Sha) (hf : TrackerFaithful c mem) (hreal : Realizes c G V)
    (root : String) (r : Sha) (hroot : DecodeString root = (r, none)) (hr : r ∈ V) (t0 : τ)
    (fuel : Nat) (hfuel : weight V (fun v => (G v).length) [] + 2 ≤ fuel) :
    ∃ p', PushHash c fuel (NewPush t0) root = some (p', none) ∧
      (∀ x, ReachAvoid G (mem t0) r x → timesPut x p'.trace = 1) ∧
      (∀ x, mem t0 x = true → x ∉ fetches p'.trace ∧ x ∉ puts p'.trace) := by
  obtain ⟨p', hrun, hdone⟩ := push_fresh_correct c mem G V hf hreal root r hroot hr t0 fuel hfuel
  refine ⟨p', hrun, ?_, ?_⟩
  · intro x hx
    exact timesPut_eq_one x p'.trace hdone.nodup (hdone.complete x hx)
  · intro x hx
    have hnot : x ∉ puts p'.trace := by
      intro hin
      have := (hdone.sound x hin).target_avoid
      rw [hx] at this
      simp at this
    exact ⟨by rw [hdone.fetched]; exact hnot, hnot⟩

/-- An instance: the diamond of the example with object 3 already tracked. -/
theorem PushHash_each_reachable_once_witness :
    ∃ p', PushHash toyCollab 6 (NewPush [toySha 3]) (toyHash 1) = some (p', none) ∧
      (∀ x, ReachAvoid toyGraph (toyMem [toySha 3]) (toySha 1) x →
        timesPut x p'.trace = 1) ∧
      (∀ x, toyMem [toySha 3] x = true → x ∉ fetches p'.trace ∧ x ∉ puts p'.trace) :=
  PushHash_each_reachable_once toyCollab toyMem toyGraph toyVertices toy_faithful toy_realizes
    (toyHash 1) (toySha 1) (toy_root_decodes 1) (by decide) [toySha 3] 6 (by decide)

/-- C2: when the content store answers, for the entry being processed, a CID
different from the expected one, the loop of `doWork` returns an error at that
entry: the worklist is left as it was (the children are not added) and the
only calls issued from there on are the fetch and the `DagPut` of that entry. -/
theorem doWork_aborts_on_cid_mismatch {τ : Type} (c : Collab τ) (fuel i : Nat) (p : Push τ)
    (hash : String) (sha : Sha) (cid res : String) (obj : EncodedObject) (payload : List Byte)
    (hget : p.todo[i]? = some hash) (hd : DecodeString hash = (sha, none))
    (hh : c.HasEntry p.tracker sha = .ok false) (hc : c.CidFromHex hash = .ok cid)
    (ho : c.EncodedObject (NewHash hash) = .ok obj) (hr : obj.reader = .ok (.ok payload))
    (hp : c.DagPut (header obj.typ obj.size ++ payload) = .ok res) (hne : res ≠ cid) :
    ∃ p' err, doWorkLoop c (fuel + 1) i p = some (p', some err) ∧ p'.todo = p.todo ∧
      p'.trace = p.trace ++ [Event.fetch (NewHash hash),
        Event.dagPut sha (header obj.typ obj.size ++ payload)] := by
  have hne' : ¬ cid = res := fun h => hne h.symm
  cases ha : c.AddEntry p.tracker sha with
  | error e =>
    refine ⟨{ p with done := (p.done + 1) % 2 ^ 64,
                     trace := p.trace ++ [Event.fetch (NewHash hash)] ++
                       [Event.dagPut sha (header obj.typ obj.size ++ payload)] },
      "push: " ++ e, ?_, ?_, ?_⟩
    · simp only [doWorkLoop, hget, doWorkBody, hd, hh, hc, ho, hr, hp, ha]
    · rfl
    · simp
  | ok t' =>
    refine ⟨{ p with done := (p.done + 1) % 2 ^ 64, tracker := t',
                     trace := p.trace ++ [Event.fetch (NewHash hash)] ++
                       [Event.dagPut sha (header obj.typ obj.size ++ payload)] },
      "CIDs don't match: expected " ++ cid ++ ", got " ++ res, ?_, ?_, ?_⟩
    · simp only [doWorkLoop, hget, doWorkBody, hd, hh, hc, ho, hr, hp, ha, ne_eq, hne',
        not_false_eq_true, if_true]
    · rfl
    · simp

/-- An instance: the example's root answered with the CID `zWrong`, object 2
queued behind it. -/
theorem doWork_aborts_on_cid_mismatch_witness :
    ∃ p' err, doWorkLoop toyWrongCid (5 + 1) 0
        { NewPush ([] : List Sha) with todo := [toyHash 1, toyHash 2] } = some (p', some err) ∧
      p'.todo = [toyHash 1, toyHash 2] ∧
      p'.trace = [] ++ [Event.fetch (NewHash (toyHash 1)),
        Event.dagPut (toySha 1) (header ObjectType.CommitObject 3 ++ [1, 2, 3])] :=
  doWork_aborts_on_cid_mismatch toyWrongCid 5 0
    { NewPush ([] : List Sha) with todo := [toyHash 1, toyHash 2] }
    (toyHash 1) (toySha 1) ("z" ++ EncodeToString (toySha 1)) "zWrong"
    ⟨ObjectType.CommitObject, 3, .ok (.ok [1, 2, 3])⟩ [1, 2, 3]
    rfl (toy_root_decodes 1) rfl (by simp only [toyWrongCid, toyCollab, toy_root_decodes])
    rfl rfl rfl (by decide)

/-- C3 fails on the code: the error `processLinks` returns is dropped by
`doWork`. With a Link Extractor that cannot parse, `processLinks` reports an
error for the root object, yet `PushHash` returns success, and the children 2
and 3 of the root are never submitted. -/
theorem processLinks_error_dropped :
    ∃ p err, PushHash toyParseFails 6 (NewPush []) (toyHash 1) = some (p, none) ∧
      (processLinks toyParseFails p (header ObjectType.CommitObject 3 ++ [1, 2, 3])).2
        = some err ∧
      puts p.trace = [toySha 1] ∧ toyGraph (toySha 1) = [toySha 2, toySha 3] :=
  ⟨_, _, rfl, rfl, by decide, by decide⟩

/-- C4 as stated fails: the first run records the root, then aborts at child
2 (the content store refuses it); the retry finds the root in the Tracker,
skips it and returns success, so the reachable identity 4 is neither in the
Tracker nor submitted in either run. -/
theorem retry_counterexample :
    ¬ (∀ (c1 c2 : Collab (List Sha)) (G : Sha → List Sha) (V : List Sha)
        (root : String) (r : Sha) (fuel1 fuel2 : Nat) (p1 p2 : Push (List Sha)) (err : String),
        TrackerSound c1 toyMem → TrackerFaithful c2 toyMem → Realizes c2 G V →
        DecodeString root = (r, none) → r ∈ V →
        PushHash c1 fuel1 (NewPush []) root = some (p1, some err) →
        PushHash c2 fuel2 (NewPush p1.tracker) root = some (p2, none) →
        ∀ x, ReachAvoid G (toyMem []) r x →
          toyMem p2.tracker x = true ∧ (x ∈ puts p1.trace ∨ x ∈ puts p2.trace)) := by
  intro hall
  have h := hall toyPutFails toyCollab toyGraph toyVertices (toyHash 1) (toySha 1) 6 6 _ _ _
    toy_sound_putFails toy_faithful toy_realizes (toy_root_decodes 1) (by decide) rfl rfl
    (toySha 4) toy_reach_4
  revert h
  decide

/-- C4 (amended): after a first `PushHash(root)` from an empty Tracker that
aborted, every identity the Tracker holds was submitted in that run; a second
`PushHash(root)` on a fresh `Push` over the same Tracker with working
collaborators returns success, submits no identity the first run recorded,
and submits exactly once, and records, every identity reachable from the root
along identities the first run did not record. -/
theorem retry_pushes_unrecorded {τ : Type} (c1 c2 : Collab τ) (mem : τ → Sha → Bool)
    (G : Sha → List Sha) (V : List Sha) (hs1 : TrackerSound c1 mem)
    (hf2 : TrackerFaithful c2 mem) (hreal : Realizes c2 G V)
    (root : String) (r : Sha) (hroot : DecodeString root = (r, none)) (hr : r ∈ V)
    (t0 : τ) (hempty : ∀ x, mem t0 x = false)
    (fuel1 : Nat) (p1 : Push τ) (err : String)
    (hrun1 : PushHash c1 fuel1 (NewPush t0) root = some (p1, some err))
    (fuel2 : Nat) (hfuel2 : weight V (fun v => (G v).length) [] + 2 ≤ fuel2) :
    ∃ p2, PushHash c2 fuel2 (NewPush p1.tracker) root = some (p2, none) ∧
      (∀ x, mem p1.tracker x = true → x ∈ puts p1.trace ∧ x ∉ puts p2.trace) ∧
      (∀ x, ReachAvoid G (mem p1.tracker) r x →
        timesPut x p2.trace = 1 ∧ mem p2.tracker x = true) := by
  obtain ⟨p2, hrun2, hdone⟩ :=
    push_fresh_correct c2 mem G V hf2 hreal root r hroot hr p1.tracker fuel2 hfuel2
  have hrec := doWorkLoop_recorded c1 mem hs1 t0 fuel1 0
    { NewPush t0 with todo := root :: (NewPush t0).todo } (p1, some err)
    (by intro x hx; simp only [NewPush] at hx; rw [hempty x] at hx; simp at hx)
    hrun1
  refine ⟨p2, hrun2, ?_, ?_⟩
  · intro x hx
    constructor
    · rcases hrec x hx with h1 | h1
      · rw [hempty x] at h1; simp at h1
      · exact h1
    · intro hin
      have := (hdone.sound x hin).target_avoid
      rw [hx] at this
      simp at this
  · intro x hx
    have hin := hdone.complete x hx
    refine ⟨timesPut_eq_one x p2.trace hdone.nodup hin, ?_⟩
    rw [hdone.tracked x]
    simp [hin]

/-- An instance: the content store refuses object 2 in the first run, which
leaves the root recorded. -/
theorem retry_pushes_unrecorded_witness :
    ∃ p2, PushHash toyCollab 6
        (NewPush [toySha 1]) (toyHash 1) = some (p2, none) ∧
      (∀ x, toyMem [toySha 1] x = true →
        x ∈ puts [Event.fetch (toySha 1),
              Event.dagPut (toySha 1) (header ObjectType.CommitObject 3 ++ [1, 2, 3]),
              Event.fetch (toySha 2),
              Event.dagPut (toySha 2) (header ObjectType.TreeObject 2 ++ [2, 4])] ∧
          x ∉ puts p2.trace) ∧
      (∀ x, ReachAvoid toyGraph (toyMem [toySha 1]) (toySha 1) x →
        timesPut x p2.trace = 1 ∧ toyMem p2.tracker x = true) :=
  retry_pushes_unrecorded toyPutFails toyCollab toyMem toyGraph toyVertices
    toy_sound_putFails toy_faithful toy_realizes (toyHash 1) (toySha 1) (toy_root_decodes 1)
    (by decide) [] (fun _ => rfl) 6
    { done := 2, todoc := 3, todo := [toyHash 1, toyHash 2, toyHash 3],
      tracker := [toySha 1],
      trace := [Event.fetch (toySha 1),
              Event.dagPut (toySha 1) (header ObjectType.CommitObject 3 ++ [1, 2, 3]),
              Event.fetch (toySha 2),
              Event.dagPut (toySha 2) (header ObjectType.TreeObject 2 ++ [2, 4])] }
    "push: dag/put: connection refused" rfl 6 (by decide)

/-- C9: over a finite object store, with a Tracker that remembers what was
added, the loop of `doWork` started by `PushHash` on a fresh `Push`
terminates within `fuelBound` iterations, whatever the child relation and
whatever the collaborators answer; the worklist stays shorter than that
bound and no identity is expanded twice. -/
theorem doWork_terminates {τ : Type} (c : Collab τ) (mem : τ → Sha → Bool)
    (hrem : TrackerRemembers c mem) (store : List (List Byte))
    (hstore : ∀ key obj, c.EncodedObject key = .ok obj → key ∈ store)
    (root : String) (t0 : τ) (fuel : Nat) (hfuel : fuelBound c store root ≤ fuel) :
    ∃ res, PushHash c fuel (NewPush t0) root = some res ∧
      res.1.todo.length < fuelBound c store root ∧ (puts res.1.trace).Nodup := by
  obtain ⟨res, hres, hlen, hnd⟩ := doWorkLoop_terminates c mem hrem
    (worklistUniverse c store root) (fun s => (linksOf c (keyOf s)).length)
    (fun p p' hash s hd _ hh hb =>
      doWorkBody_expand_universe c store hstore root p p' hash s hd hb hh)
    fuel 0 { NewPush t0 with todo := root :: (NewPush t0).todo }
    (by
      intro h hh s hs
      simp [NewPush] at hh
      subst hh
      simp [worklistUniverse, hs])
    (by intro x hx; simp [NewPush, puts] at hx)
    (by simp [NewPush, puts])
    (by simp only [NewPush, puts, List.length_cons, List.length_nil, fuelBound] at hfuel ⊢; omega)
  refine ⟨res, hres, ?_, hnd⟩
  simp only [NewPush, puts, List.length_cons, List.length_nil] at hlen
  unfold fuelBound
  omega

/-- An instance: the example's store of four objects. -/
theorem doWork_terminates_witness :
    ∃ res, PushHash toyCollab 20 (NewPush [toySha 3]) (toyHash 1) = some res ∧
      res.1.todo.length < fuelBound toyCollab toyVertices (toyHash 1) ∧
      (puts res.1.trace).Nodup :=
  doWork_terminates toyCollab toyMem toy_faithful.remembers toyVertices toy_store_finite
    (toyHash 1) [toySha 3] 20 (by decide)

end GitRemoteIpld
